import Mathlib

/-!
Verification development for the rust-hqm-server repository.

The definitions below are shallow embeddings of the Rust code in
src/hqm_parse.rs, src/hqm_game.rs and src/hqm_russian.rs.  Machine
integers (u8, u32, i32) are modelled as Nat or Int with explicit
masking and range checks where overflow or conversion failure matters.
Rust code that can panic (slice indexing out of bounds, unwrap of a
failed conversion) is modelled with the PanicOr result type, whose
panicked constructor marks a Rust panic.  Floating-point values are
modelled as exact rationals where a claim needs them; the places where
this abstraction matters are noted at the individual definitions.
-/

/-- Result of running a piece of Rust code that may panic: either a normal
value, or a panic raised by an out-of-bounds slice index or by unwrap on a
failed conversion. -/
inductive PanicOr (α : Type) where
  | ok : α → PanicOr α
  | panicked : PanicOr α
  deriving DecidableEq, Repr

/-- Writer state of HQMMessageWriter (src/hqm_parse.rs, lines 167-171): a
byte buffer, a byte cursor and a bit offset inside the current byte.  Buffer
bytes are Nat values; all writes store values below 256. -/
structure HQMMessageWriter where
  buf : List Nat
  pos : Nat
  bitPos : Nat
  deriving DecidableEq, Repr

/-- Loop of HQMMessageWriter::write_bits (src/hqm_parse.rs, lines 228-254),
written with an explicit fuel parameter to make the recursion structural.
Fuel equal to the number of bits still to write is always enough, because
every iteration with a bit offset below 8 consumes at least one bit; the
round-trip theorems below are proved with exactly that fuel, which validates
that the fuel never runs out on the modelled executions.  Arguments after
the fuel are the buffer, the byte cursor, the bit offset, the masked value
to write, the bits remaining and the shift p into the value. -/
def writeBitsAux : Nat → List Nat → Nat → Nat → Nat → Nat → Nat → List Nat × Nat × Nat
  | 0, buf, pos, bitPos, _, _, _ => (buf, pos, bitPos)
  | fuel + 1, buf, pos, bitPos, toWrite, bitsRemaining, p =>
    if bitsRemaining = 0 then (buf, pos, bitPos)
    else
      let bitsPossibleToWrite := 8 - bitPos
      let bits := min bitsRemaining bitsPossibleToWrite
      let mask := 2 ^ bits - 1
      let a := (toWrite >>> p) &&& mask
      let buf1 := if bitPos = 0 then buf.set pos a
        else buf.set pos (buf.getD pos 0 ||| (a <<< bitPos))
      if bitsPossibleToWrite ≤ bitsRemaining then
        writeBitsAux fuel buf1 (pos + 1) 0 toWrite (bitsRemaining - bitsPossibleToWrite) (p + bits)
      else
        (buf1, pos, bitPos + bits)

/-- HQMMessageWriter::write_bits (src/hqm_parse.rs, lines 228-254).  The
Rust expression !(u32::MAX << n) & v masks v to its low n bits when n < 32;
for n = 32 the u32 value v is kept whole, which the model expresses as
v % 2^32 because v is a u32. -/
def HQMMessageWriter.write_bits (w : HQMMessageWriter) (n : Nat) (v : Nat) : HQMMessageWriter :=
  let toWrite := if n < 32 then v % 2 ^ n else v % 2 ^ 32
  let r := writeBitsAux n w.buf w.pos w.bitPos toWrite n 0
  ⟨r.1, r.2.1, r.2.2⟩

/-- HQMMessageWriter::write_pos (src/hqm_parse.rs, lines 223-227): the writer
always emits the two header bits 11 and then the absolute value in n bits. -/
def HQMMessageWriter.write_pos (w : HQMMessageWriter) (n : Nat) (v : Nat) : HQMMessageWriter :=
  (w.write_bits 2 3).write_bits n v

/-- Reader state of HQMMessageReader (src/hqm_parse.rs, lines 268-272). -/
structure HQMMessageReader where
  buf : List Nat
  pos : Nat
  bitPos : Nat
  deriving DecidableEq, Repr

/-- Loop of HQMMessageReader::read_bits (src/hqm_parse.rs, lines 351-374),
with an explicit fuel parameter, as for writeBitsAux.  The Rust indexing
expression self.buf[self.pos] panics when the cursor has run past the end of
the buffer, which the model reports as panicked. -/
def readBitsAux : Nat → List Nat → Nat → Nat → Nat → Nat → Nat → PanicOr (Nat × Nat × Nat)
  | 0, _, pos, bitPos, _, res, _ => .ok (res, pos, bitPos)
  | fuel + 1, buf, pos, bitPos, bitsRemaining, res, p =>
    if bitsRemaining = 0 then .ok (res, pos, bitPos)
    else
      match buf[pos]? with
      | none => .panicked
      | some byte =>
        let bitsPossibleToWrite := 8 - bitPos
        let bits := min bitsRemaining bitsPossibleToWrite
        let mask := 2 ^ bits - 1
        let a := (byte >>> bitPos) &&& mask
        let res1 := res ||| (a <<< p)
        if bitsPossibleToWrite ≤ bitsRemaining then
          readBitsAux fuel buf (pos + 1) 0 (bitsRemaining - bitsPossibleToWrite) res1 (p + bits)
        else
          .ok (res1, pos, bitPos + bitsRemaining)

/-- HQMMessageReader::read_bits (src/hqm_parse.rs, lines 351-374). -/
def HQMMessageReader.read_bits (r : HQMMessageReader) (b : Nat) : PanicOr (Nat × HQMMessageReader) :=
  match readBitsAux b r.buf r.pos r.bitPos b 0 0 with
  | .panicked => .panicked
  | .ok (res, pos, bitPos) => .ok (res, ⟨r.buf, pos, bitPos⟩)

/-- HQMMessageReader::read_bits_signed (src/hqm_parse.rs, lines 340-349).
For 1 <= b <= 31 and 2^(b-1) <= a < 2^b the Rust sign extension
(-1 << b) | (a as i32) equals a - 2^b, because -1 << b is -2^b and its low
b bits are clear; the model writes the subtraction directly over Int.
Outside that range the shifts are arithmetic errors, which panic in the
overflow-checked build and are modelled as panics: at b = 0 the u8
subtraction b - 1 underflows, at b greater than 32 the u32 shift
1 << (b - 1) overflows, and at b = 32 the i32 shift -1 << b overflows
(a release build wraps these shifts instead; src only ever passes
b = 3, 6 and 12, where both builds agree).  The comparison itself and the
no-extension branch involve no i32 shift, so for b = 32 and a below 2^31
the function still returns a. -/
def HQMMessageReader.read_bits_signed (r : HQMMessageReader) (b : Nat) :
    PanicOr (Int × HQMMessageReader) :=
  match r.read_bits b with
  | .panicked => .panicked
  | .ok (a, r1) =>
    if 1 ≤ b ∧ b ≤ 32 then
      if 2 ^ (b - 1) ≤ a then
        if b ≤ 31 then .ok ((a : Int) - 2 ^ b, r1) else .panicked
      else .ok ((a : Int), r1)
    else .panicked

/-- Shared body of the three delta branches of HQMMessageReader::read_pos
(src/hqm_parse.rs, lines 320-331): read a k-bit signed delta and compute
u32::try_from(diff + i32::try_from(old_value.unwrap()).unwrap()).unwrap().
The unwraps panic when old_value is None and when the old u32 value does
not fit in i32.  The addition diff + old is an i32 addition, so a sum
outside the i32 range [-2^31, 2^31) is an arithmetic error and the model
reports it as a panic: the overflow-checked build panics at the addition,
and a release build wraps the sum, which for every overflow reachable here
(the delta has at most 12 bits and old is below 2^31, so the sum exceeds
2^31 - 1 rather than falling below -2^31) makes the wrapped value negative
and the final u32::try_from unwrap panic instead.  Lastly, that final
unwrap panics on a negative in-range sum. -/
def readPosDelta (r : HQMMessageReader) (k : Nat) (old_value : Option Nat) :
    PanicOr (Nat × HQMMessageReader) :=
  match r.read_bits_signed k with
  | .panicked => .panicked
  | .ok (diff, r1) =>
    match old_value with
    | none => .panicked
    | some old =>
      if old < 2 ^ 31 then
        let s : Int := diff + (old : Int)
        if -(2 ^ 31) ≤ s ∧ s < 2 ^ 31 then
          if 0 ≤ s then .ok (s.toNat, r1) else .panicked
        else .panicked
      else .panicked

/-- HQMMessageReader::read_pos (src/hqm_parse.rs, lines 317-337): two header
bits select a 3-, 6- or 12-bit signed delta added to old_value, or an
absolute value in b bits. -/
def HQMMessageReader.read_pos (r : HQMMessageReader) (b : Nat) (old_value : Option Nat) :
    PanicOr (Nat × HQMMessageReader) :=
  match r.read_bits 2 with
  | .panicked => .panicked
  | .ok (pos_type, r1) =>
    match pos_type with
    | 0 => readPosDelta r1 3 old_value
    | 1 => readPosDelta r1 6 old_value
    | 2 => readPosDelta r1 12 old_value
    | 3 => r1.read_bits b
    | _ => .panicked

/-- Bit number i of a byte buffer, least significant bit of each byte first,
which is the order in which write_bits and read_bits traverse the stream. -/
def bitAt (buf : List Nat) (i : Nat) : Bool :=
  (buf.getD (i / 8) 0).testBit (i % 8)

/-- Value of the n bits of the stream starting at bit index start, least
significant first. -/
def sliceVal (buf : List Nat) : Nat → Nat → Nat
  | _, 0 => 0
  | start, n + 1 => (bitAt buf start).toNat + 2 * sliceVal buf (start + 1) n

/-- Bits of a sum whose low part is bounded: bit j of 2 ^ i * a + b with
b < 2 ^ i is bit j of b below i and bit j - i of a from i upward. -/
theorem testBit_high_add (a b i j : Nat) (hb : b < 2 ^ i) :
    (2 ^ i * a + b).testBit j = if j < i then b.testBit j else a.testBit (j - i) := by
  rcases lt_or_ge j i with hj | hj
  · rw [if_pos hj, Nat.testBit_to_div_mod, Nat.testBit_to_div_mod]
    have h1 : 2 ^ i * a + b = 2 ^ j * (2 ^ (i - j) * a) + b := by
      have hij : j + (i - j) = i := by omega
      conv_rhs => rw [← Nat.mul_assoc, ← Nat.pow_add, hij]
    rw [h1, Nat.mul_add_div (Nat.two_pow_pos j)]
    have h2 : 2 ^ (i - j) * a = 2 * (2 ^ (i - j - 1) * a) := by
      have hk : i - j - 1 + 1 = i - j := by omega
      conv_lhs => rw [← hk, pow_succ']
      rw [Nat.mul_assoc]
    rw [h2, decide_eq_decide]
    omega
  · rw [if_neg (Nat.not_lt.mpr hj), Nat.testBit_to_div_mod, Nat.testBit_to_div_mod]
    have h1 : (2 : Nat) ^ j = 2 ^ i * 2 ^ (j - i) := by
      have hij : i + (j - i) = j := by omega
      conv_lhs => rw [← hij]
      rw [Nat.pow_add]
    rw [h1, ← Nat.div_div_eq_div_mul, Nat.mul_add_div (Nat.two_pow_pos i),
      Nat.div_eq_of_lt hb, Nat.add_zero]

/-- Bitwise or of a value below 2 ^ k with a left shift by k is plain
addition; this is how the writer merges a chunk into a partially
filled byte and how the reader accumulates chunks. -/
theorem lor_shiftLeft_eq_add (a b k : Nat) (ha : a < 2 ^ k) :
    a ||| (b <<< k) = a + 2 ^ k * b := by
  apply Nat.eq_of_testBit_eq
  intro i
  rw [Nat.testBit_lor, Nat.testBit_shiftLeft,
    show a + 2 ^ k * b = 2 ^ k * b + a from by omega, testBit_high_add b a k i ha]
  rcases lt_or_ge i k with h | h
  · simp [h, Nat.not_le.mpr h]
  · have hfalse : a.testBit i = false :=
      Nat.testBit_lt_two_pow (lt_of_lt_of_le ha (Nat.pow_le_pow_right (by norm_num) h))
    simp [h, Nat.not_lt.mpr h, hfalse]

/-- Low-bit split of a remainder by a power of two. -/
theorem mod_two_pow_succ_lsb (x n : Nat) :
    x % 2 ^ (n + 1) = x % 2 + 2 * (x / 2 % 2 ^ n) := by
  have hm : (2 : Nat) ^ (n + 1) = 2 * 2 ^ n := by rw [pow_succ']
  have h2 : x / 2 % 2 ^ n < 2 ^ n := Nat.mod_lt _ (Nat.two_pow_pos n)
  have h3 : x % 2 < 2 := Nat.mod_lt _ (by norm_num)
  have h4 : (1 : Nat) ≤ 2 ^ n := Nat.one_le_two_pow
  calc x % 2 ^ (n + 1) = (2 * (x / 2) + x % 2) % (2 * 2 ^ n) := by
        rw [← hm]
        congr 1
        omega
    _ = (2 * (x / 2) % (2 * 2 ^ n) + x % 2 % (2 * 2 ^ n)) % (2 * 2 ^ n) := Nat.add_mod _ _ _
    _ = (2 * (x / 2 % 2 ^ n) + x % 2) % (2 * 2 ^ n) := by
        have h5 : x % 2 % (2 * 2 ^ n) = x % 2 := Nat.mod_eq_of_lt (by omega)
        rw [Nat.mul_mod_mul_left, h5]
    _ = 2 * (x / 2 % 2 ^ n) + x % 2 := Nat.mod_eq_of_lt (by omega)
    _ = x % 2 + 2 * (x / 2 % 2 ^ n) := by omega

/-- Lowest bit of x as a Nat is x mod 2. -/
theorem testBit_zero_toNat (x : Nat) : (x.testBit 0).toNat = x % 2 := by
  rw [Nat.testBit_to_div_mod]
  rcases Nat.mod_two_eq_zero_or_one x with h | h <;> simp [h]

/-- Evaluation of sliceVal from pointwise bit values: when the n stream bits
starting at start agree with the low n bits of x, the slice value is
x mod 2 ^ n. -/
theorem sliceVal_eq_of_testBit (buf : List Nat) :
    ∀ n start x, (∀ i, i < n → bitAt buf (start + i) = x.testBit i) →
    sliceVal buf start n = x % 2 ^ n := by
  intro n
  induction n with
  | zero =>
    intro start x _
    simp [sliceVal, Nat.mod_one]
  | succ n ih =>
    intro start x h
    rw [sliceVal]
    have h0 : bitAt buf start = x.testBit 0 := by simpa using h 0 (Nat.succ_pos n)
    have hrec : sliceVal buf (start + 1) n = (x >>> 1) % 2 ^ n := by
      apply ih
      intro i hi
      have h2 := h (i + 1) (by omega)
      rw [show start + (i + 1) = start + 1 + i from by omega] at h2
      rw [h2, Nat.testBit_shiftRight, Nat.add_comm 1 i]
    rw [h0, hrec, testBit_zero_toNat, Nat.shiftRight_eq_div_pow, pow_one,
      mod_two_pow_succ_lsb]

/-- Slice of bits lying inside one byte of the buffer. -/
theorem sliceVal_within_byte (buf : List Nat) (pos bitPos c : Nat) (h : bitPos + c ≤ 8) :
    sliceVal buf (8 * pos + bitPos) c = (buf.getD pos 0 >>> bitPos) % 2 ^ c := by
  apply sliceVal_eq_of_testBit
  intro i hi
  rw [Nat.testBit_shiftRight, bitAt]
  have hdiv : (8 * pos + bitPos + i) / 8 = pos := by omega
  have hmod : (8 * pos + bitPos + i) % 8 = bitPos + i := by omega
  rw [hdiv, hmod]

/-- Concatenation of bit slices. -/
theorem sliceVal_add (buf : List Nat) :
    ∀ m k start, sliceVal buf start (m + k)
      = sliceVal buf start m + 2 ^ m * sliceVal buf (start + m) k := by
  intro m
  induction m with
  | zero =>
    intro k start
    simp [sliceVal]
  | succ m ih =>
    intro k start
    rw [show m + 1 + k = (m + k) + 1 from by omega, sliceVal, sliceVal,
      ih k (start + 1), show start + (m + 1) = start + 1 + m from by omega]
    ring

/-- Buffers that are clean from the cursor onward have no set bits there.
Cleanliness is the invariant every state reachable by the writer satisfies:
the byte under the cursor holds bits only below the bit offset, and every
later byte is zero. -/
theorem bitAt_false_of_clean (buf : List Nat) (pos bitPos : Nat) (hbit : bitPos < 8)
    (h1 : buf.getD pos 0 < 2 ^ bitPos)
    (h2 : ∀ j, j < buf.length → pos < j → buf.getD j 0 = 0) :
    ∀ i, 8 * pos + bitPos ≤ i → bitAt buf i = false := by
  intro i hi
  rw [bitAt]
  rcases Nat.lt_trichotomy (i / 8) pos with h | h | h
  · exfalso
    omega
  · rw [h]
    apply Nat.testBit_lt_two_pow
    calc buf.getD pos 0 < 2 ^ bitPos := h1
      _ ≤ 2 ^ (i % 8) := Nat.pow_le_pow_right (by norm_num) (by omega)
  · rcases lt_or_ge (i / 8) buf.length with hl | hl
    · rw [h2 _ hl h]
      exact Nat.zero_testBit _
    · rw [List.getD_eq_default _ _ hl]
      exact Nat.zero_testBit _

/-- Reading the updated entry of a set list. -/
theorem getD_set_self (l : List Nat) (i x : Nat) (h : i < l.length) :
    (l.set i x).getD i 0 = x := by
  rw [List.getD_eq_getElem?_getD, List.getElem?_set_self h]
  rfl

/-- Reading an untouched entry of a set list. -/
theorem getD_set_ne (l : List Nat) (i j x : Nat) (h : i ≠ j) :
    (l.set i x).getD j 0 = l.getD j 0 := by
  rw [List.getD_eq_getElem?_getD, List.getElem?_set_ne h, ← List.getD_eq_getElem?_getD]

/-- Step equation for writeBitsAux from a state whose current byte is clean
above the bit offset: the byte merge (an assignment when the offset is 0, a
bitwise or otherwise) is then plain addition of the shifted chunk. -/
theorem writeBitsAux_step (fuel : Nat) (buf : List Nat) (pos bitPos toWrite n p : Nat)
    (hn : n ≠ 0) (h1 : buf.getD pos 0 < 2 ^ bitPos) :
    writeBitsAux (fuel + 1) buf pos bitPos toWrite n p =
      if 8 - bitPos ≤ n then
        writeBitsAux fuel
          (buf.set pos (buf.getD pos 0 + 2 ^ bitPos * ((toWrite >>> p) % 2 ^ min n (8 - bitPos))))
          (pos + 1) 0 toWrite (n - (8 - bitPos)) (p + min n (8 - bitPos))
      else
        (buf.set pos (buf.getD pos 0 + 2 ^ bitPos * ((toWrite >>> p) % 2 ^ min n (8 - bitPos))),
          pos, bitPos + min n (8 - bitPos)) := by
  simp only [writeBitsAux]
  rw [if_neg hn, Nat.and_pow_two_sub_one_eq_mod]
  by_cases h0 : bitPos = 0
  · subst h0
    have hz : buf[pos]?.getD 0 = 0 := by
      rw [← List.getD_eq_getElem?_getD]
      exact Nat.lt_one_iff.mp (by simpa using h1)
    simp [hz]
  · rw [if_neg h0, lor_shiftLeft_eq_add _ _ _ h1]

/-- Step equation for readBitsAux when the cursor is inside the buffer and
the accumulator only holds bits below the shift p: the accumulation by
bitwise or is then plain addition of the shifted chunk. -/
theorem readBitsAux_step (fuel : Nat) (buf : List Nat) (pos bitPos n res p : Nat)
    (hn : n ≠ 0) (hpos : pos < buf.length) (hres : res < 2 ^ p) :
    readBitsAux (fuel + 1) buf pos bitPos n res p =
      if 8 - bitPos ≤ n then
        readBitsAux fuel buf (pos + 1) 0 (n - (8 - bitPos))
          (res + 2 ^ p * ((buf.getD pos 0 >>> bitPos) % 2 ^ min n (8 - bitPos)))
          (p + min n (8 - bitPos))
      else
        .ok (res + 2 ^ p * ((buf.getD pos 0 >>> bitPos) % 2 ^ min n (8 - bitPos)),
          pos, bitPos + n) := by
  have hget : buf.getD pos 0 = buf[pos] := by
    rw [List.getD_eq_getElem?_getD, List.getElem?_eq_getElem hpos]
    rfl
  have hbyte : buf[pos]? = some (buf.getD pos 0) := by
    rw [hget, List.getElem?_eq_getElem hpos]
  simp only [readBitsAux]
  rw [if_neg hn, hbyte]
  simp only [Nat.and_pow_two_sub_one_eq_mod, lor_shiftLeft_eq_add _ _ _ hres]

/-- Bound for merging a chunk below 2 ^ b into a value below 2 ^ k. -/
theorem clean_add_chunk_lt (x a k b : Nat) (hx : x < 2 ^ k) (ha : a < 2 ^ b) :
    x + 2 ^ k * a < 2 ^ (k + b) := by
  have h := Nat.mul_le_mul_left (2 ^ k) (Nat.succ_le_of_lt ha)
  rw [Nat.mul_succ] at h
  rw [Nat.pow_add]
  omega

/-- Full characterization of a writeBitsAux run started from a clean state:
length and cursor bookkeeping, preservation of the bits before the cursor,
the values of the n written bits (bits p, p + 1, ... of the value), zeroness
of everything at and after the end of the written range, and cleanliness of
the final state. -/
structure WriteSpec (buf : List Nat) (pos bitPos toWrite n p : Nat)
    (out : List Nat × Nat × Nat) : Prop where
  len : out.1.length = buf.length
  cursor : 8 * out.2.1 + out.2.2 = 8 * pos + bitPos + n
  bitLt : out.2.2 < 8
  frontEq : ∀ i, i < 8 * pos + bitPos → bitAt out.1 i = bitAt buf i
  written : ∀ i, i < n → bitAt out.1 (8 * pos + bitPos + i) = (toWrite >>> p).testBit i
  tailZero : ∀ i, 8 * pos + bitPos + n ≤ i → bitAt out.1 i = false
  headClean : out.1.getD out.2.1 0 < 2 ^ out.2.2
  restClean : ∀ j, j < out.1.length → out.2.1 < j → out.1.getD j 0 = 0

/-- Constructor for WriteSpec with the output state given componentwise, so
that tuple projections never appear in proof goals. -/
theorem writeSpec_mk (buf : List Nat) (pos bitPos toWrite n p : Nat)
    (obuf : List Nat) (opos obit : Nat)
    (len : obuf.length = buf.length)
    (cursor : 8 * opos + obit = 8 * pos + bitPos + n)
    (bitLt : obit < 8)
    (frontEq : ∀ i, i < 8 * pos + bitPos → bitAt obuf i = bitAt buf i)
    (written : ∀ i, i < n → bitAt obuf (8 * pos + bitPos + i) = (toWrite >>> p).testBit i)
    (tailZero : ∀ i, 8 * pos + bitPos + n ≤ i → bitAt obuf i = false)
    (headClean : obuf.getD opos 0 < 2 ^ obit)
    (restClean : ∀ j, j < obuf.length → opos < j → obuf.getD j 0 = 0) :
    WriteSpec buf pos bitPos toWrite n p (obuf, opos, obit) :=
  ⟨len, cursor, bitLt, frontEq, written, tailZero, headClean, restClean⟩

/-- Writing zero bits from a clean state leaves everything in place. -/
theorem writeSpec_nil (buf : List Nat) (pos bitPos toWrite p : Nat) (hbit : bitPos < 8)
    (h1 : buf.getD pos 0 < 2 ^ bitPos)
    (h2 : ∀ j, j < buf.length → pos < j → buf.getD j 0 = 0) :
    WriteSpec buf pos bitPos toWrite 0 p (buf, pos, bitPos) :=
  writeSpec_mk buf pos bitPos toWrite 0 p buf pos bitPos rfl (by omega) hbit
    (fun _ _ => rfl) (fun i hi => absurd hi (Nat.not_lt_zero i))
    (fun i hi => bitAt_false_of_clean buf pos bitPos hbit h1 h2 i (by omega)) h1 h2

/-- Main invariant proof for the write loop: from a clean state with enough
buffer room, writeBitsAux writes exactly bits p, p + 1, ... of the value
into the n stream positions at the cursor, and perturbs nothing else. -/
theorem writeBitsAux_spec (fuel : Nat) :
    ∀ buf pos bitPos toWrite n p, bitPos < 8 → n ≤ fuel → pos + n ≤ buf.length →
    buf.getD pos 0 < 2 ^ bitPos →
    (∀ j, j < buf.length → pos < j → buf.getD j 0 = 0) →
    WriteSpec buf pos bitPos toWrite n p (writeBitsAux fuel buf pos bitPos toWrite n p) := by
  induction fuel with
  | zero =>
    intro buf pos bitPos toWrite n p hbit hn hroom h1 h2
    have hn0 : n = 0 := by omega
    subst hn0
    exact writeSpec_nil buf pos bitPos toWrite p hbit h1 h2
  | succ fuel ih =>
    intro buf pos bitPos toWrite n p hbit hn hroom h1 h2
    by_cases hn0 : n = 0
    · subst hn0
      have hstep : writeBitsAux (fuel + 1) buf pos bitPos toWrite 0 p = (buf, pos, bitPos) := by
        simp [writeBitsAux]
      rw [hstep]
      exact writeSpec_nil buf pos bitPos toWrite p hbit h1 h2
    · have hpos : pos < buf.length := by omega
      rw [writeBitsAux_step fuel buf pos bitPos toWrite n p hn0 h1]
      set bits := min n (8 - bitPos) with hbitsDef
      set a := (toWrite >>> p) % 2 ^ bits with haDef
      set newByte := buf.getD pos 0 + 2 ^ bitPos * a with hnbDef
      set buf2 := buf.set pos newByte with hbuf2Def
      have haLt : a < 2 ^ bits := Nat.mod_lt _ (Nat.two_pow_pos bits)
      have hbits1 : 1 ≤ bits := by omega
      have hlen2 : buf2.length = buf.length := List.length_set buf pos newByte
      have hB2pos : buf2.getD pos 0 = newByte := getD_set_self buf pos newByte hpos
      have hB2ne : ∀ j, j ≠ pos → buf2.getD j 0 = buf.getD j 0 := by
        intro j hj
        exact getD_set_ne buf pos j newByte (fun h => hj h.symm)
      have hNewBit : ∀ k, newByte.testBit k
          = if k < bitPos then (buf.getD pos 0).testBit k else a.testBit (k - bitPos) := by
        intro k
        rw [hnbDef, Nat.add_comm, testBit_high_add a (buf.getD pos 0) bitPos k h1]
      have hNewLt : newByte < 2 ^ (bitPos + bits) :=
        clean_add_chunk_lt (buf.getD pos 0) a bitPos bits h1 haLt
      have hFront2 : ∀ i, i < 8 * pos + bitPos → bitAt buf2 i = bitAt buf i := by
        intro i hi
        rw [bitAt, bitAt]
        rcases eq_or_ne (i / 8) pos with hq | hq
        · rw [hq, hB2pos, hNewBit, if_pos (by omega)]
        · rw [hB2ne _ hq]
      have hChunkBit : ∀ i, i < bits
          → bitAt buf2 (8 * pos + bitPos + i) = (toWrite >>> p).testBit i := by
        intro i hi
        rw [bitAt]
        have hdiv : (8 * pos + bitPos + i) / 8 = pos := by omega
        have hmod : (8 * pos + bitPos + i) % 8 = bitPos + i := by omega
        rw [hdiv, hmod, hB2pos, hNewBit, if_neg (by omega), Nat.add_sub_cancel_left, haDef,
          Nat.testBit_mod_two_pow]
        simp [hi]
      by_cases hcase : 8 - bitPos ≤ n
      · -- the chunk fills the byte; recurse on the rest
        rw [if_pos hcase]
        have hbitsEq : bits = 8 - bitPos := by omega
        have hz2 : buf2.getD (pos + 1) 0 = 0 := by
          rcases lt_or_ge (pos + 1) buf.length with hl | hl
          · rw [hB2ne _ (by omega), h2 _ hl (by omega)]
          · rw [hB2ne _ (by omega), List.getD_eq_default _ _ hl]
        have S := ih buf2 (pos + 1) 0 toWrite (n - (8 - bitPos)) (p + bits)
          (by norm_num) (by omega) (by omega)
          (by rw [hz2]; norm_num)
          (by
            intro j hj1 hj2
            rw [hB2ne _ (by omega)]
            exact h2 j (by omega) (by omega))
        refine ⟨?_, ?_, S.bitLt, ?_, ?_, ?_, S.headClean, ?_⟩
        · rw [S.len, hlen2]
        · have := S.cursor
          omega
        · intro i hi
          rw [S.frontEq i (by omega)]
          exact hFront2 i hi
        · intro i hi
          rcases lt_or_ge i bits with hlt | hge
          · have h8 : 8 * pos + bitPos + i < 8 * (pos + 1) + 0 := by omega
            rw [S.frontEq _ h8]
            exact hChunkBit i hlt
          · have hidx : 8 * pos + bitPos + i = 8 * (pos + 1) + 0 + (i - bits) := by omega
            rw [hidx, S.written (i - bits) (by omega), Nat.testBit_shiftRight,
              Nat.testBit_shiftRight]
            congr 1
            omega
        · intro i hi
          exact S.tailZero i (by omega)
        · intro j hj1 hj2
          exact S.restClean j hj1 (by omega)
      · -- the chunk ends inside the current byte
        rw [if_neg hcase]
        have hbitsEq : bits = n := by omega
        refine writeSpec_mk buf pos bitPos toWrite n p buf2 pos (bitPos + bits)
          hlen2 (by omega) (by omega) hFront2 ?_ ?_ ?_ ?_
        · intro i hi
          exact hChunkBit i (by omega)
        · intro i hi
          rcases eq_or_ne (i / 8) pos with hq | hq
          · rw [bitAt, hq, hB2pos]
            apply Nat.testBit_lt_two_pow
            calc newByte < 2 ^ (bitPos + bits) := hNewLt
              _ ≤ 2 ^ (i % 8) := Nat.pow_le_pow_right (by norm_num) (by omega)
          · rw [bitAt, hB2ne _ hq, ← bitAt]
            exact bitAt_false_of_clean buf pos bitPos hbit h1 h2 i (by omega)
        · rw [hB2pos]
          exact hNewLt
        · intro j hj1 hj2
          rw [hB2ne _ (by omega)]
          exact h2 j (by omega) hj2

/-- Main invariant proof for the read loop: with the cursor inside the
buffer and a small accumulator, readBitsAux returns the accumulator merged
with the value of the n stream bits at the cursor, and advances the cursor
by exactly n bits. -/
theorem readBitsAux_spec (fuel : Nat) :
    ∀ buf pos bitPos n res p, bitPos < 8 → n ≤ fuel → pos + n ≤ buf.length → res < 2 ^ p →
    ∃ pos2 bit2, readBitsAux fuel buf pos bitPos n res p
        = .ok (res + 2 ^ p * sliceVal buf (8 * pos + bitPos) n, pos2, bit2) ∧
      8 * pos2 + bit2 = 8 * pos + bitPos + n ∧ bit2 < 8 := by
  induction fuel with
  | zero =>
    intro buf pos bitPos n res p hbit hn hroom hres
    have hn0 : n = 0 := by omega
    subst hn0
    exact ⟨pos, bitPos, by simp [readBitsAux, sliceVal], by omega, hbit⟩
  | succ fuel ih =>
    intro buf pos bitPos n res p hbit hn hroom hres
    by_cases hn0 : n = 0
    · subst hn0
      exact ⟨pos, bitPos, by simp [readBitsAux, sliceVal], by omega, hbit⟩
    · have hpos : pos < buf.length := by omega
      rw [readBitsAux_step fuel buf pos bitPos n res p hn0 hpos hres]
      set bits := min n (8 - bitPos) with hbitsDef
      set a := (buf.getD pos 0 >>> bitPos) % 2 ^ bits with haDef
      have haLt : a < 2 ^ bits := Nat.mod_lt _ (Nat.two_pow_pos bits)
      by_cases hcase : 8 - bitPos ≤ n
      · rw [if_pos hcase]
        have hbitsEq : bits = 8 - bitPos := by omega
        have hres1 : res + 2 ^ p * a < 2 ^ (p + bits) := clean_add_chunk_lt res a p bits hres haLt
        obtain ⟨pos2, bit2, heq, hcur, hb2⟩ := ih buf (pos + 1) 0 (n - (8 - bitPos))
          (res + 2 ^ p * a) (p + bits) (by norm_num) (by omega) (by omega) hres1
        refine ⟨pos2, bit2, ?_, by omega, hb2⟩
        rw [heq]
        have hsplit : sliceVal buf (8 * pos + bitPos) n
            = sliceVal buf (8 * pos + bitPos) bits
              + 2 ^ bits * sliceVal buf (8 * pos + bitPos + bits) (n - bits) := by
          conv_lhs => rw [show n = bits + (n - bits) from by omega]
          exact sliceVal_add buf bits (n - bits) (8 * pos + bitPos)
        have hchunk : sliceVal buf (8 * pos + bitPos) bits = a := by
          rw [sliceVal_within_byte buf pos bitPos bits (by omega), haDef]
        have hidx : 8 * pos + bitPos + bits = 8 * (pos + 1) + 0 := by omega
        have hn2 : n - (8 - bitPos) = n - bits := by omega
        rw [hn2, hsplit, hchunk, ← hidx]
        congr 1
        rw [Nat.pow_add]
        ring_nf
      · rw [if_neg hcase]
        have hbitsEq : bits = n := by omega
        refine ⟨pos, bitPos + n, ?_, by omega, by omega⟩
        have hchunk : sliceVal buf (8 * pos + bitPos) n = a := by
          rw [haDef, hbitsEq, sliceVal_within_byte buf pos bitPos n (by omega)]
        rw [hchunk]

/-- Characterization of HQMMessageWriter.write_bits from a clean writer
state with width at most 32 and room in the buffer: the cursor advances by
exactly n bits, the n stream positions at the old cursor receive the low n
bits of v, every earlier stream bit is preserved, every stream bit at or
after the new cursor is zero, the new state is clean again, and the buffer
length never changes. -/
theorem write_bits_clean_spec (buf : List Nat) (pos bitPos n v : Nat)
    (hbit : bitPos < 8) (hn2 : n ≤ 32) (hroom : pos + n ≤ buf.length)
    (h1 : buf.getD pos 0 < 2 ^ bitPos)
    (h2 : ∀ j, j < buf.length → pos < j → buf.getD j 0 = 0) :
    ∃ obuf opos obit, HQMMessageWriter.write_bits ⟨buf, pos, bitPos⟩ n v = ⟨obuf, opos, obit⟩ ∧
      obuf.length = buf.length ∧
      8 * opos + obit = 8 * pos + bitPos + n ∧ obit < 8 ∧
      (∀ i, i < 8 * pos + bitPos → bitAt obuf i = bitAt buf i) ∧
      (∀ i, i < n → bitAt obuf (8 * pos + bitPos + i) = v.testBit i) ∧
      (∀ i, 8 * pos + bitPos + n ≤ i → bitAt obuf i = false) ∧
      obuf.getD opos 0 < 2 ^ obit ∧
      (∀ j, j < obuf.length → opos < j → obuf.getD j 0 = 0) := by
  have htw : (if n < 32 then v % 2 ^ n else v % 2 ^ 32) = v % 2 ^ n := by
    rcases lt_or_ge n 32 with h | h
    · rw [if_pos h]
    · have h32 : n = 32 := by omega
      subst h32
      rw [if_neg (by omega)]
  have S := writeBitsAux_spec n buf pos bitPos (v % 2 ^ n) n 0 hbit (le_refl n) hroom h1 h2
  refine ⟨(writeBitsAux n buf pos bitPos (v % 2 ^ n) n 0).1,
    (writeBitsAux n buf pos bitPos (v % 2 ^ n) n 0).2.1,
    (writeBitsAux n buf pos bitPos (v % 2 ^ n) n 0).2.2, ?_, S.len, S.cursor, S.bitLt,
    S.frontEq, ?_, S.tailZero, S.headClean, S.restClean⟩
  · rw [HQMMessageWriter.write_bits]
    simp only [htw]
  · intro i hi
    rw [S.written i hi, Nat.shiftRight_zero, Nat.testBit_mod_two_pow]
    simp [hi]

/-- Characterization of HQMMessageReader.read_bits with the cursor inside
the buffer: it returns the value of the n stream bits at the cursor and
advances the cursor by exactly n bits. -/
theorem read_bits_ok_spec (buf : List Nat) (pos bitPos n : Nat) (hbit : bitPos < 8)
    (hroom : pos + n ≤ buf.length) :
    ∃ pos2 bit2, HQMMessageReader.read_bits ⟨buf, pos, bitPos⟩ n
      = .ok (sliceVal buf (8 * pos + bitPos) n, ⟨buf, pos2, bit2⟩) ∧
      8 * pos2 + bit2 = 8 * pos + bitPos + n ∧ bit2 < 8 := by
  obtain ⟨pos2, bit2, heq, hcur, hb⟩ :=
    readBitsAux_spec n buf pos bitPos n 0 0 hbit (le_refl n) hroom (by norm_num)
  refine ⟨pos2, bit2, ?_, hcur, hb⟩
  rw [HQMMessageReader.read_bits]
  simp only [heq]
  norm_num

/-- C1: for every bit width b between 1 and 32, every value v below 2 ^ b
and every initial bit offset between 0 and 7, writing v with write_bits and
re-reading from the same starting byte and bit position with read_bits
returns exactly v.  The two cleanliness hypotheses say that no stream bit
at or after the cursor is set; every writer state reachable through the
writer API satisfies them, so they express no more than that the write
happens on a writer stream at that cursor. -/
theorem c1_bits_roundtrip (buf : List Nat) (pos bitPos b v : Nat)
    (hbit : bitPos < 8) (_hb1 : 1 ≤ b) (hb2 : b ≤ 32) (hv : v < 2 ^ b)
    (hroom : pos + b ≤ buf.length)
    (h1 : buf.getD pos 0 < 2 ^ bitPos)
    (h2 : ∀ j, j < buf.length → pos < j → buf.getD j 0 = 0) :
    ∃ r2, HQMMessageReader.read_bits
        ⟨(HQMMessageWriter.write_bits ⟨buf, pos, bitPos⟩ b v).buf, pos, bitPos⟩ b
      = .ok (v, r2) := by
  obtain ⟨obuf, opos, obit, hw, hlen, hcur, hbitlt, hfront, hwritten, htail, hhc, hrc⟩ :=
    write_bits_clean_spec buf pos bitPos b v hbit hb2 hroom h1 h2
  rw [hw]
  obtain ⟨pos2, bit2, hr, hcur2, hb2r⟩ :=
    read_bits_ok_spec obuf pos bitPos b hbit (by rw [hlen]; exact hroom)
  have hval : sliceVal obuf (8 * pos + bitPos) b = v := by
    rw [sliceVal_eq_of_testBit obuf b (8 * pos + bitPos) v hwritten, Nat.mod_eq_of_lt hv]
  exact ⟨⟨obuf, pos2, bit2⟩, by rw [hr, hval]⟩

/-- Witness for c1_bits_roundtrip: width 7, value 100, initial offset 3. -/
theorem c1_bits_roundtrip_witness :
    ∃ r2, HQMMessageReader.read_bits
        ⟨(HQMMessageWriter.write_bits ⟨[0, 0, 0, 0, 0, 0, 0], 0, 3⟩ 7 100).buf, 0, 3⟩ 7
      = .ok (100, r2) :=
  c1_bits_roundtrip [0, 0, 0, 0, 0, 0, 0] 0 3 7 100 (by decide) (by decide) (by decide)
    (by decide) (by decide) (by decide) (by decide)

/-- C9 counterexample: write_bits does touch stream bits beyond the n
written positions.  Writing a single 0 bit at offset 0 of the byte 255
stores the whole byte as 0, so bit 7 of the buffer flips from 1 to 0 even
though only bit position 0 was written. -/
theorem c9_counterexample :
    (HQMMessageWriter.write_bits ⟨[255], 0, 0⟩ 1 0).buf = [0] ∧
    bitAt [255] 7 = true ∧ bitAt [0] 7 = false := by
  decide

/-- C9 as amended: for widths 1 to 31 and an arbitrary u32 value v, from a
writer state whose stream is clean at and after the cursor (the invariant of
every reachable writer state), write_bits stores exactly the low n bits of
v, leaves every stream bit outside those n positions unchanged, keeps the
buffer length, and a subsequent read_bits of the same width from the same
position returns v mod 2 ^ n. -/
theorem c9_write_bits_masks (buf : List Nat) (pos bitPos n v : Nat)
    (hbit : bitPos < 8) (_hn1 : 1 ≤ n) (hn2 : n ≤ 31)
    (hroom : pos + n ≤ buf.length)
    (h1 : buf.getD pos 0 < 2 ^ bitPos)
    (h2 : ∀ j, j < buf.length → pos < j → buf.getD j 0 = 0) :
    ∃ obuf opos obit, HQMMessageWriter.write_bits ⟨buf, pos, bitPos⟩ n v = ⟨obuf, opos, obit⟩ ∧
      obuf.length = buf.length ∧
      (∀ i, i < n → bitAt obuf (8 * pos + bitPos + i) = (v % 2 ^ n).testBit i) ∧
      (∀ i, i < 8 * pos + bitPos → bitAt obuf i = bitAt buf i) ∧
      (∀ i, 8 * pos + bitPos + n ≤ i → bitAt obuf i = bitAt buf i) ∧
      (∃ r2, HQMMessageReader.read_bits ⟨obuf, pos, bitPos⟩ n = .ok (v % 2 ^ n, r2)) := by
  obtain ⟨obuf, opos, obit, hw, hlen, hcur, hbitlt, hfront, hwritten, htail, hhc, hrc⟩ :=
    write_bits_clean_spec buf pos bitPos n v hbit (by omega) hroom h1 h2
  refine ⟨obuf, opos, obit, hw, hlen, ?_, hfront, ?_, ?_⟩
  · intro i hi
    rw [hwritten i hi, Nat.testBit_mod_two_pow]
    simp [hi]
  · intro i hi
    rw [htail i hi, bitAt_false_of_clean buf pos bitPos hbit h1 h2 i (by omega)]
  · obtain ⟨pos2, bit2, hr, hcur2, hb2r⟩ :=
      read_bits_ok_spec obuf pos bitPos n hbit (by rw [hlen]; exact hroom)
    have hval : sliceVal obuf (8 * pos + bitPos) n = v % 2 ^ n :=
      sliceVal_eq_of_testBit obuf n (8 * pos + bitPos) v hwritten
    exact ⟨⟨obuf, pos2, bit2⟩, by rw [hr, hval]⟩

/-- Witness for c9_write_bits_masks: width 4, value 1000 (so 1000 mod 16 = 8
is stored), initial offset 5. -/
theorem c9_write_bits_masks_witness :
    ∃ obuf opos obit,
      HQMMessageWriter.write_bits ⟨[7, 0, 0, 0], 0, 5⟩ 4 1000 = ⟨obuf, opos, obit⟩ ∧
      obuf.length = [7, 0, 0, 0].length ∧
      (∀ i, i < 4 → bitAt obuf (8 * 0 + 5 + i) = (1000 % 2 ^ 4).testBit i) ∧
      (∀ i, i < 8 * 0 + 5 → bitAt obuf i = bitAt [7, 0, 0, 0] i) ∧
      (∀ i, 8 * 0 + 5 + 4 ≤ i → bitAt obuf i = bitAt [7, 0, 0, 0] i) ∧
      (∃ r2, HQMMessageReader.read_bits ⟨obuf, 0, 5⟩ 4 = .ok (1000 % 2 ^ 4, r2)) :=
  c9_write_bits_masks [7, 0, 0, 0] 0 5 4 1000 (by decide) (by decide) (by decide)
    (by decide) (by decide) (by decide)

/-- C3 counterexample: at a concrete input that reads past the end of the
buffer, read_pos does not produce a recoverable decode-error value: the
slice index in read_bits panics, which refutes the claim as stated. -/
theorem c3_counterexample :
    HQMMessageReader.read_pos ⟨[], 0, 0⟩ 17 (some 100) = .panicked := by
  decide

/-- C3 as amended: the failure modes of read_pos are a panic or a silently
out-of-range value, not a recoverable decode error.  Reading past the end of
the buffer panics (index out of bounds) for every width and old value; a
delta whose sum with old is negative panics (unwrap of a failed
u32::try_from); a delta whose sum with old reaches 2 ^ 31 panics (overflow
of the i32 addition, witnessed by header 00 with delta +1 and
old = 2 ^ 31 - 1); and a delta whose sum stays within [0, 2 ^ 31) but
exceeds 2 ^ b - 1 is returned as an ordinary value with no error at all:
with b = 2 and old = 3, the stream holding header 00 and delta +3 decodes
to ok 6, which is outside the 2-bit range. -/
theorem c3_read_pos_failures :
    (∀ b old, HQMMessageReader.read_pos ⟨[], 0, 0⟩ b old = .panicked) ∧
    (∀ b, HQMMessageReader.read_pos ⟨[28], 0, 0⟩ b (some 0) = .panicked) ∧
    (∀ b, HQMMessageReader.read_pos ⟨[4], 0, 0⟩ b (some (2 ^ 31 - 1)) = .panicked) ∧
    HQMMessageReader.read_pos ⟨[12], 0, 0⟩ 2 (some 3) = .ok (6, ⟨[12], 0, 5⟩) ∧
    2 ^ 2 - 1 < 6 := by
  refine ⟨fun b old => rfl, fun b => rfl, fun b => rfl, by decide, by decide⟩

/-- C4: write_pos always emits the header bits 11 followed by the value in
b bits; read_pos handles all four headers, adding a 3-, 6- or 12-bit
sign-extended delta to the old value for headers 00, 01 and 10 and reading
an absolute b-bit value for header 11; and consequently, for every width b
between 1 and 32, every v below 2 ^ b and every old value, reading with
read_pos right after writing with write_pos from the same clean cursor
returns exactly v.  The sign-extension equation is stated for the widths
1 to 31 on which the source's i32 shift is defined (the delta headers use
3, 6 and 12), and the delta addition is stated for sums inside the i32
range, outside of which the source's i32 addition panics rather than
returning a value. -/
theorem c4_write_read_pos :
    (∀ (w : HQMMessageWriter) (n v : Nat),
      w.write_pos n v = (w.write_bits 2 3).write_bits n v) ∧
    (∀ (r r1 : HQMMessageReader) (b : Nat) (old : Option Nat) (t : Nat),
      r.read_bits 2 = .ok (t, r1) →
      (t = 0 → r.read_pos b old = readPosDelta r1 3 old) ∧
      (t = 1 → r.read_pos b old = readPosDelta r1 6 old) ∧
      (t = 2 → r.read_pos b old = readPosDelta r1 12 old) ∧
      (t = 3 → r.read_pos b old = r1.read_bits b)) ∧
    (∀ (r : HQMMessageReader) (b a : Nat) (r2 : HQMMessageReader),
      r.read_bits b = .ok (a, r2) → 1 ≤ b → b ≤ 31 →
      r.read_bits_signed b
        = .ok (if a < 2 ^ (b - 1) then (a : Int) else (a : Int) - 2 ^ b, r2)) ∧
    (∀ (r1 : HQMMessageReader) (k o : Nat) (d : Int) (r2 : HQMMessageReader),
      r1.read_bits_signed k = .ok (d, r2) → o < 2 ^ 31 →
      0 ≤ d + (o : Int) → d + (o : Int) < 2 ^ 31 →
      readPosDelta r1 k (some o) = .ok ((d + (o : Int)).toNat, r2)) ∧
    (∀ (buf : List Nat) (pos bitPos b v : Nat) (old : Option Nat),
      bitPos < 8 → 1 ≤ b → b ≤ 32 → v < 2 ^ b →
      pos + 2 + b ≤ buf.length → buf.getD pos 0 < 2 ^ bitPos →
      (∀ j, j < buf.length → pos < j → buf.getD j 0 = 0) →
      ∃ r2, HQMMessageReader.read_pos
          ⟨(HQMMessageWriter.write_pos ⟨buf, pos, bitPos⟩ b v).buf, pos, bitPos⟩ b old
        = .ok (v, r2)) := by
  refine ⟨fun w n v => rfl, ?_, ?_, ?_, ?_⟩
  · intro r r1 b old t h
    refine ⟨?_, ?_, ?_, ?_⟩ <;> intro ht <;> subst ht <;>
      rw [HQMMessageReader.read_pos, h]
  · intro r b a r2 h hb1 hb31
    rw [HQMMessageReader.read_bits_signed, h]
    dsimp only
    rw [if_pos (⟨hb1, by omega⟩ : 1 ≤ b ∧ b ≤ 32)]
    rcases lt_or_ge a (2 ^ (b - 1)) with hlt | hge
    · rw [if_neg (Nat.not_le.mpr hlt), if_pos hlt]
    · rw [if_pos hge, if_pos hb31, if_neg (Nat.not_lt.mpr hge)]
  · intro r1 k o d r2 h ho h0 h31
    rw [readPosDelta, h]
    dsimp only
    rw [if_pos ho,
      if_pos (⟨by omega, h31⟩ : -(2 ^ 31 : Int) ≤ d + (o : Int) ∧ d + (o : Int) < 2 ^ 31),
      if_pos h0]
  · intro buf pos bitPos b v old hbit _hb1 hb2 hv hroom h1 h2
    obtain ⟨obuf1, opos1, obit1, hw1, hlen1, hcur1, hbitlt1, hfront1, hwritten1, htail1,
      hhc1, hrc1⟩ := write_bits_clean_spec buf pos bitPos 2 3 hbit (by omega) (by omega) h1 h2
    have hroom2 : opos1 + b ≤ obuf1.length := by rw [hlen1]; omega
    obtain ⟨obuf2, opos2, obit2, hw2, hlen2, hcur2, hbitlt2, hfront2, hwritten2, htail2,
      hhc2, hrc2⟩ := write_bits_clean_spec obuf1 opos1 obit1 b v hbitlt1 hb2 hroom2 hhc1 hrc1
    have hwp : (HQMMessageWriter.write_pos ⟨buf, pos, bitPos⟩ b v).buf = obuf2 := by
      rw [HQMMessageWriter.write_pos, hw1, hw2]
    rw [hwp]
    -- the reader first consumes the two header bits, which still hold 3
    have hlen21 : obuf2.length = buf.length := by rw [hlen2, hlen1]
    obtain ⟨rp1, rb1, hr1, hrcur1, hrbit1⟩ :=
      read_bits_ok_spec obuf2 pos bitPos 2 hbit (by omega)
    have hhead : sliceVal obuf2 (8 * pos + bitPos) 2 = 3 := by
      have hbits : ∀ i, i < 2 → bitAt obuf2 (8 * pos + bitPos + i) = Nat.testBit 3 i := by
        intro i hi
        rw [hfront2 (8 * pos + bitPos + i) (by omega), hwritten1 i hi]
      rw [sliceVal_eq_of_testBit obuf2 2 (8 * pos + bitPos) 3 hbits]
      decide
    -- then it reads the absolute value written after the header
    have hcurEq : 8 * rp1 + rb1 = 8 * opos1 + obit1 := by omega
    obtain ⟨rp2, rb2, hr2, hrcur2, hrbit2⟩ :=
      read_bits_ok_spec obuf2 rp1 rb1 b hrbit1 (by omega)
    have hval : sliceVal obuf2 (8 * rp1 + rb1) b = v := by
      rw [hcurEq, hcur1]
      have hbits : ∀ i, i < b → bitAt obuf2 (8 * pos + bitPos + 2 + i) = v.testBit i := by
        intro i hi
        rw [show 8 * pos + bitPos + 2 + i = 8 * opos1 + obit1 + i from by omega]
        exact hwritten2 i hi
      rw [sliceVal_eq_of_testBit obuf2 b (8 * pos + bitPos + 2) v hbits, Nat.mod_eq_of_lt hv]
    have hfin : HQMMessageReader.read_pos ⟨obuf2, pos, bitPos⟩ b old
        = HQMMessageReader.read_bits ⟨obuf2, rp1, rb1⟩ b := by
      rw [HQMMessageReader.read_pos, hr1, hhead]
    rw [hfin, hr2, hval]
    exact ⟨⟨obuf2, rp2, rb2⟩, rfl⟩

/-- Witness for c4_write_read_pos: its round-trip part at width 17, value
99999, a fresh writer over five zero bytes and old value 5. -/
theorem c4_write_read_pos_witness :
    ∃ r2, HQMMessageReader.read_pos
        ⟨(HQMMessageWriter.write_pos ⟨List.replicate 19 0, 0, 0⟩ 17 99999).buf, 0, 0⟩
        17 (some 5)
      = .ok (99999, r2) :=
  c4_write_read_pos.2.2.2.2 (List.replicate 19 0) 0 0 17 99999 (some 5) (by decide) (by decide)
    (by decide) (by decide) (by decide) (by decide) (by decide)

/-- Symbolic unit vectors for the rotation codec of src/hqm_parse.rs.  The
codec manipulates f32 vectors, but every vector it constructs is either one
of the six axis unit vectors or a normalized sum of previously constructed
vectors, so the exact shape of every triangle corner is captured by this
syntax tree: nsum a b stands for (a + b).normalize(), and nsum3 a b c for
(a + b + c).normalize().  At the concrete instances below, distinct trees
denote distinct direction vectors (the two midpoints that differ lie on
different edges of the spherical triangle). -/
inductive SVec where
  | uxp
  | uxn
  | uyp
  | uyn
  | uzp
  | uzn
  | nsum (a b : SVec)
  | nsum3 (a b c : SVec)
  deriving DecidableEq, Repr

/-- Octant table shared by convert_rot_column_from_network and
convert_rot_column_to_network (src/hqm_parse.rs, lines 29-38 and 87-96). -/
def octantTriangle (start : Nat) : SVec × SVec × SVec :=
  match start with
  | 0 => (.uyp, .uxp, .uzp)
  | 1 => (.uyp, .uzp, .uxn)
  | 2 => (.uyp, .uzn, .uxp)
  | 3 => (.uyp, .uxn, .uzn)
  | 4 => (.uzp, .uxp, .uyn)
  | 5 => (.uxn, .uzp, .uyn)
  | 6 => (.uxp, .uzn, .uyn)
  | _ => (.uzn, .uxn, .uyn)

/-- One refinement step of convert_rot_column_from_network
(src/hqm_parse.rs, lines 47-70), transcribed exactly as in the source:
c1 and c3 are BOTH normalize(temp1 + temp2) (line 50), while c2 is
normalize(temp2 + temp3).  The Rust panic arm for step values above 3 is
unreachable because the step is masked with 3; the catch-all arm here covers
the step value 3. -/
def decoderStep (t : SVec × SVec × SVec) (step : Nat) : SVec × SVec × SVec :=
  let c1 := SVec.nsum t.1 t.2.1
  let c2 := SVec.nsum t.2.1 t.2.2
  let c3 := SVec.nsum t.1 t.2.1
  match step with
  | 0 => (t.1, c1, c3)
  | 1 => (c1, t.2.1, c2)
  | 2 => (c3, c2, t.2.2)
  | _ => (c1, c2, c3)

/-- Corner update of one refinement step of convert_rot_column_to_network
(src/hqm_parse.rs, lines 112-142), for a given classified sub-triangle id.
In the source the 2-bit id is chosen by three signed edge tests on the f32
input vector; once the id is fixed, the new corners are pure normalized sums
of the old corners: temp4 = normalize(temp1 + temp2),
temp5 = normalize(temp2 + temp3), temp6 = normalize(temp1 + temp3), and the
update is (temp1, temp4, temp6) for id 0, (temp4, temp2, temp5) for id 1,
(temp6, temp5, temp3) for id 2 and (temp4, temp5, temp6) for id 3. -/
def encoderStepCorners (t : SVec × SVec × SVec) (step : Nat) : SVec × SVec × SVec :=
  let temp4 := SVec.nsum t.1 t.2.1
  let temp5 := SVec.nsum t.2.1 t.2.2
  let temp6 := SVec.nsum t.1 t.2.2
  match step with
  | 0 => (t.1, temp4, temp6)
  | 1 => (temp4, t.2.1, temp5)
  | 2 => (temp6, temp5, t.2.2)
  | _ => (temp4, temp5, temp6)

/-- Modelled from the spec: the decoder refinement step as the spec
describes it, refining with the same three midpoints as the encoder, that
is, with c3 = normalize(temp1 + temp3); this is the variant the spec notes
an implementer should prefer over the source line
c3 = (temp1 + temp2).normalize(). -/
def decoderStepSpec (t : SVec × SVec × SVec) (step : Nat) : SVec × SVec × SVec :=
  let c1 := SVec.nsum t.1 t.2.1
  let c2 := SVec.nsum t.2.1 t.2.2
  let c3 := SVec.nsum t.1 t.2.2
  match step with
  | 0 => (t.1, c1, c3)
  | 1 => (c1, t.2.1, c2)
  | 2 => (c3, c2, t.2.2)
  | _ => (c1, c2, c3)

/-- Refinement loop of convert_rot_column_from_network (src/hqm_parse.rs,
lines 45-73): starting at bit position 3, while pos < b consume a 2-bit
step and refine; fuel as for the codec loops (b iterations always
suffice since pos grows by 2 each time). -/
def decoderLoop : Nat → Nat → Nat → Nat → (SVec × SVec × SVec) → SVec × SVec × SVec
  | 0, _, _, _, t => t
  | fuel + 1, pos, b, v, t =>
    if pos < b then decoderLoop fuel (pos + 2) b v (decoderStep t ((v >>> pos) &&& 3))
    else t

/-- convert_rot_column_from_network (src/hqm_parse.rs, lines 21-76) as a
symbolic computation over SVec; the result is the normalized sum of the
three final corners. -/
def convert_rot_column_from_network (b : Nat) (v : Nat) : SVec :=
  let start := v &&& 7
  let t := octantTriangle start
  let t2 := decoderLoop b 3 b v t
  .nsum3 t2.1 t2.2.1 t2.2.2

/-- C2: the decoder does NOT refine with the same three midpoints as the
encoder.  The encoder uses normalize(t1 + t2), normalize(t2 + t3) and
normalize(t1 + t3); the decoder computes c3 = normalize(temp1 + temp2)
instead of normalize(temp1 + temp3) (src/hqm_parse.rs, line 50), so on the
step values 0, 2 and 3 the decoder keeps different corners than the encoder
classified.  At the failing input b = 5, v = 0 (octant 0, one refinement
step with id 0) the decoder corner is normalize(uyp + uxp) where the
encoder used normalize(uyp + uzp).  With the spec-corrected c3 the decoder
step agrees with the encoder on every triangle and every step value, which
identifies the source line as the slip. -/
theorem c2_decoder_midpoint_mismatch :
    decoderStep (octantTriangle 0) 0 ≠ encoderStepCorners (octantTriangle 0) 0 ∧
    decoderStep (octantTriangle 0) 0 = (.uyp, .nsum .uyp .uxp, .nsum .uyp .uxp) ∧
    encoderStepCorners (octantTriangle 0) 0 = (.uyp, .nsum .uyp .uxp, .nsum .uyp .uzp) ∧
    convert_rot_column_from_network 5 0
      = .nsum3 .uyp (.nsum .uyp .uxp) (.nsum .uyp .uxp) ∧
    (∀ (t : SVec × SVec × SVec) (step : Nat),
      decoderStepSpec t step = encoderStepCorners t step) := by
  refine ⟨by decide, by decide, by decide, by decide, ?_⟩
  intro t step
  rcases step with _ | _ | _ | n <;> rfl

/-- HQMTeam (src/hqm_game.rs, lines 434-439). -/
inductive HQMTeam where
  | Spec
  | Red
  | Blue
  deriving DecidableEq, Repr

/-- Modelled from the spec: HQMTeam::get_other_team is defined in the
migo_hqm_server library crate, outside src/; the spec describes the other
team of an attempt as the opposing side, so Red and Blue swap.  It is never
applied to Spec in the Russian behaviour. -/
def HQMTeam.get_other_team : HQMTeam → HQMTeam
  | .Red => .Blue
  | .Blue => .Red
  | .Spec => .Spec

/-- HQMRussianStatus (src/hqm_russian.rs, lines 10-18). -/
inductive HQMRussianStatus where
  | pause
  | game (in_zone : HQMTeam) (round : Nat) (goal_scored : Bool)
  | gameOver
  deriving DecidableEq, Repr

/-- Chat messages sent by the Russian behaviour, as an abstract datatype in
place of the formatted strings of the source: the number-of-attempts-left,
last-attempt and tie-breaker messages of fix_status, and the goal message
of add_goal_message. -/
inductive RChatMsg where
  | attemptsLeft (n : Nat) (team : HQMTeam)
  | lastAttempt (team : HQMTeam)
  | tieBreaker (team : HQMTeam)
  | goalMsg (team : HQMTeam)
  deriving DecidableEq, Repr

/-- The fields of HQMGame (src/hqm_game.rs, lines 41-60) that the Russian
behaviour reads or writes; scores, clocks and counters are u32 values whose
arithmetic here never overflows, so they are modelled as plain Nat. -/
structure RGame where
  redScore : Nat
  blueScore : Nat
  time : Nat
  timeBreak : Nat
  gameOver : Bool
  isIntermissionGoal : Bool
  deriving DecidableEq, Repr

/-- A touch record of a puck: connected player index, team and time,
matching the entries managed by HQMPuck::add_touch. -/
structure RTouch where
  playerIndex : Nat
  team : HQMTeam
  time : Nat
  deriving DecidableEq, Repr

/-- The slice of HQMServer state that the Russian event handling touches:
the game, the chat log, the skaters of the world (object slot index to
connected player index and team, as returned by get_skater) and the touch
rings of the pucks (object slot index to ring). -/
structure RServer where
  game : RGame
  messages : List RChatMsg
  worldSkaters : List (Option (Nat × HQMTeam))
  puckTouches : List (Option (List RTouch))
  deriving DecidableEq, Repr

/-- The per-mode behaviour state HQMRussianBehaviour
(src/hqm_russian.rs, lines 20-25), restricted to the fields the claims
concern; the physics configuration and team size do not enter any claim. -/
structure HQMRussianBehaviour where
  attempts : Nat
  status : HQMRussianStatus
  deriving DecidableEq, Repr

/-- HQMRussianBehaviour::check_ending (src/hqm_russian.rs, lines 200-229).
The u32 expression attempts - red_attempts_taken cannot underflow because
attempts is the maximum of the configured count and red_attempts_taken; the
nested if models the two checked_sub branches (Some exactly when the
subtraction does not underflow), whose final else arm is unreachable. -/
def HQMRussianBehaviour.check_ending (b : HQMRussianBehaviour) (g : RGame) :
    HQMRussianBehaviour × RGame :=
  match b.status with
  | .game in_zone round _ =>
    let red_attempts_taken := round + (if in_zone = HQMTeam.Blue then 1 else 0)
    let blue_attempts_taken := round
    let attempts := max b.attempts red_attempts_taken
    let remaining_red_attempts := attempts - red_attempts_taken
    let remaining_blue_attempts := attempts - blue_attempts_taken
    let game_over :=
      if g.blueScore ≤ g.redScore then
        remaining_blue_attempts < g.redScore - g.blueScore
      else if g.redScore ≤ g.blueScore then
        remaining_red_attempts < g.blueScore - g.redScore
      else False
    if game_over then
      ({ b with status := .gameOver },
        { g with
          gameOver := true
          timeBreak := 500 })
    else (b, g)
  | _ => (b, g)

/-- The attempts-left chat message chosen in fix_status
(src/hqm_russian.rs, lines 119-129 and 141-151). -/
def remainingAttemptsMsg (remaining : Nat) (team : HQMTeam) : RChatMsg :=
  if 2 ≤ remaining then .attemptsLeft remaining team
  else if remaining = 1 then .lastAttempt team
  else .tieBreaker team

/-- HQMRussianBehaviour::fix_status (src/hqm_russian.rs, lines 110-158). -/
def HQMRussianBehaviour.fix_status (b : HQMRussianBehaviour) (s : RServer) (team : HQMTeam) :
    HQMRussianBehaviour × RServer :=
  match b.status with
  | .pause =>
    let remaining_attempts := b.attempts
    ({ b with status := .game team 0 false },
      { s with messages := s.messages ++ [remainingAttemptsMsg remaining_attempts team] })
  | .game in_zone round goal_scored =>
    if in_zone ≠ team then
      let round1 := round + (if team = HQMTeam.Red then 1 else 0)
      let remaining_attempts := b.attempts - round1
      let g1 := { s.game with time := 2000 }
      ({ b with status := .game team round1 goal_scored },
        { s with
          game := g1
          messages := s.messages ++ [remainingAttemptsMsg remaining_attempts team] })
    else (b, s)
  | .gameOver => (b, s)

/-- Modelled from the spec: HQMPuck::add_touch lives in the migo_hqm_server
library crate, outside src/; the spec says the puck keeps a ring of at most
four recent touch records and that re-touching by the same player re-orders
that player's entry to the front without growing the ring. -/
def addTouch (ring : List RTouch) (playerIndex : Nat) (team : HQMTeam) (time : Nat) :
    List RTouch :=
  (RTouch.mk playerIndex team time :: ring.filter (fun e => e.playerIndex ≠ playerIndex)).take 4

/-- Modelled from the spec: the simulation events of section 4.7 of the
spec; the HQMSimulationEvent enum itself is declared in the migo_hqm_server
library crate, outside src/. -/
inductive HQMSimulationEvent where
  | puckTouch (puck : Nat) (player : Nat)
  | puckEnteredNet (team : HQMTeam) (puck : Nat)
  | puckPassedGoalLine (team : HQMTeam) (puck : Nat)
  | puckEnteredOffensiveZone (team : HQMTeam) (puck : Nat)
  | puckLeftOffensiveZone (team : HQMTeam) (puck : Nat)
  | puckEnteredOwnHalf (team : HQMTeam) (puck : Nat)
  | puckTouchedNet (team : HQMTeam) (puck : Nat)
  deriving DecidableEq, Repr

/-- The event dispatch of HQMRussianBehaviour::after_tick
(src/hqm_russian.rs, lines 317-360), which runs with
status = Game { in_zone, round, goal_scored: false }; the destructured
in_zone and round are passed explicitly, exactly as they are in scope in
the source.  A goal increments the scoring team's score, marks the status
as goal_scored, starts a 300-tick break and re-evaluates check_ending; a
puck touch records the touch (when skater and puck exist) and calls
fix_status with the touching team; a puck entering an offensive zone calls
fix_status with the other team; leaving the zone or passing the goal line
re-evaluates check_ending. -/
def handleSimEvent (attempts : Nat) (in_zone : HQMTeam) (round : Nat) (s : RServer)
    (e : HQMSimulationEvent) : HQMRussianBehaviour × RServer :=
  match e with
  | .puckEnteredNet team _ =>
    let g1 :=
      match team with
      | .Red => { s.game with redScore := s.game.redScore + 1 }
      | .Blue => { s.game with blueScore := s.game.blueScore + 1 }
      | .Spec => s.game
    let g2 := { g1 with
      timeBreak := 300
      isIntermissionGoal := true }
    let s2 := { s with
      game := g2
      messages := s.messages ++ [RChatMsg.goalMsg team] }
    let b2 := HQMRussianBehaviour.mk attempts (.game in_zone round true)
    let r := b2.check_ending s2.game
    (r.1, { s2 with game := r.2 })
  | .puckTouch puck player =>
    match (s.worldSkaters.getD player none) with
    | some (connectedPlayerIndex, touchingTeam) =>
      let s1 :=
        match s.puckTouches.getD puck none with
        | some ring =>
          { s with puckTouches :=
              s.puckTouches.set puck (some (addTouch ring connectedPlayerIndex touchingTeam
                s.game.time)) }
        | none => s
      HQMRussianBehaviour.fix_status ⟨attempts, .game in_zone round false⟩ s1 touchingTeam
    | none => (⟨attempts, .game in_zone round false⟩, s)
  | .puckEnteredOffensiveZone team _ =>
    HQMRussianBehaviour.fix_status ⟨attempts, .game in_zone round false⟩ s
      team.get_other_team
  | .puckLeftOffensiveZone _ _ =>
    let r := HQMRussianBehaviour.check_ending ⟨attempts, .game in_zone round false⟩ s.game
    (r.1, { s with game := r.2 })
  | .puckPassedGoalLine _ _ =>
    let r := HQMRussianBehaviour.check_ending ⟨attempts, .game in_zone round false⟩ s.game
    (r.1, { s with game := r.2 })
  | _ => (⟨attempts, .game in_zone round false⟩, s)

/-- Evaluation of check_ending on a Game status, obtained by unfolding the
definition. -/
theorem check_ending_game_eval (A : Nat) (z : HQMTeam) (r : Nat) (gs : Bool) (g : RGame) :
    HQMRussianBehaviour.check_ending ⟨A, .game z r gs⟩ g
      = if (if g.blueScore ≤ g.redScore then
              max A (r + (if z = HQMTeam.Blue then 1 else 0)) - r
                < g.redScore - g.blueScore
            else if g.redScore ≤ g.blueScore then
              max A (r + (if z = HQMTeam.Blue then 1 else 0))
                  - (r + (if z = HQMTeam.Blue then 1 else 0))
                < g.blueScore - g.redScore
            else False)
        then (⟨A, .gameOver⟩,
          { g with
            gameOver := true
            timeBreak := 500 })
        else (⟨A, .game z r gs⟩, g) := rfl

/-- C5: with status Game in_zone round, Red has taken
round + (1 if in_zone = Blue) attempts and Blue has taken round attempts;
writing att for max(attempts, red_attempts_taken), check_ending ends the
game (status GameOver, game_over true, 500-tick break) exactly when the
trailing team cannot catch up: when Red leads or ties and Blue's remaining
att - round attempts are fewer than the lead, or when Blue leads and Red's
remaining attempts are fewer than the lead; otherwise it changes nothing.
The last three conjuncts are the concrete scenarios of the claim with
attempts = 5: scores 1-1 in rounds 0 and 1 leave the game running, and Red
leading 5-0 through round 4 ends it. -/
theorem c5_check_ending (A : Nat) (z : HQMTeam) (r : Nat) (gs : Bool) (g : RGame) :
    ((g.blueScore ≤ g.redScore ∧
        max A (r + (if z = HQMTeam.Blue then 1 else 0)) - r
          < g.redScore - g.blueScore) ∨
      (g.redScore < g.blueScore ∧
        max A (r + (if z = HQMTeam.Blue then 1 else 0))
            - (r + (if z = HQMTeam.Blue then 1 else 0))
          < g.blueScore - g.redScore) →
      HQMRussianBehaviour.check_ending ⟨A, .game z r gs⟩ g
        = (⟨A, .gameOver⟩,
          { g with
            gameOver := true
            timeBreak := 500 })) ∧
    (¬((g.blueScore ≤ g.redScore ∧
        max A (r + (if z = HQMTeam.Blue then 1 else 0)) - r
          < g.redScore - g.blueScore) ∨
      (g.redScore < g.blueScore ∧
        max A (r + (if z = HQMTeam.Blue then 1 else 0))
            - (r + (if z = HQMTeam.Blue then 1 else 0))
          < g.blueScore - g.redScore)) →
      HQMRussianBehaviour.check_ending ⟨A, .game z r gs⟩ g = (⟨A, .game z r gs⟩, g)) ∧
    HQMRussianBehaviour.check_ending ⟨5, .game .Red 0 false⟩ (RGame.mk 1 1 2000 0 false false)
      = (⟨5, .game .Red 0 false⟩, RGame.mk 1 1 2000 0 false false) ∧
    HQMRussianBehaviour.check_ending ⟨5, .game .Blue 1 false⟩ (RGame.mk 1 1 2000 0 false false)
      = (⟨5, .game .Blue 1 false⟩, RGame.mk 1 1 2000 0 false false) ∧
    HQMRussianBehaviour.check_ending ⟨5, .game .Blue 4 false⟩ (RGame.mk 5 0 2000 0 false false)
      = (⟨5, .gameOver⟩, RGame.mk 5 0 2000 500 true false) := by
  refine ⟨?_, ?_, by decide, by decide, by decide⟩
  · intro hc
    rw [check_ending_game_eval]
    rcases le_or_lt g.blueScore g.redScore with h | h
    · rw [if_pos (by rw [if_pos h]; omega)]
    · rw [if_pos (by rw [if_neg (by omega), if_pos (by omega)]; omega)]
  · intro hc
    rw [check_ending_game_eval]
    rcases le_or_lt g.blueScore g.redScore with h | h
    · rw [if_neg (by rw [if_pos h]; omega)]
    · rw [if_neg (by rw [if_neg (by omega), if_pos (by omega)]; omega)]

/-- Witness for c5_check_ending: the game-over branch fires at attempts 5,
status Game Blue 4, score 5-0. -/
theorem c5_check_ending_witness :
    HQMRussianBehaviour.check_ending ⟨5, .game .Blue 4 false⟩ (RGame.mk 5 0 2000 0 false false)
      = (⟨5, .gameOver⟩,
        { RGame.mk 5 0 2000 0 false false with
          gameOver := true
          timeBreak := 500 }) :=
  (c5_check_ending 5 .Blue 4 false (RGame.mk 5 0 2000 0 false false)).1 (by decide)

/-- Evaluation of fix_status on a Game status, obtained by unfolding the
definition. -/
theorem fix_status_game_eval (A : Nat) (z : HQMTeam) (r : Nat) (gs : Bool) (s : RServer)
    (t : HQMTeam) :
    HQMRussianBehaviour.fix_status ⟨A, .game z r gs⟩ s t
      = if z ≠ t then
          (⟨A, .game t (r + if t = HQMTeam.Red then 1 else 0) gs⟩,
            { s with
              game := { s.game with time := 2000 }
              messages := s.messages
                ++ [remainingAttemptsMsg (A - (r + if t = HQMTeam.Red then 1 else 0)) t] })
        else (⟨A, .game z r gs⟩, s) := rfl

/-- C6: when the status is Game in_zone round goal_scored, fix_status with
team equal to in_zone changes nothing (in particular status and clock are
untouched); with a different team it sets the clock to 2000 ticks, moves
in_zone to that team and increments round exactly when the team is Red.  A
PuckEnteredOffensiveZone event dispatches fix_status with the other team,
and the other team of Red is Blue and conversely. -/
theorem c6_fix_status (A : Nat) (z : HQMTeam) (r : Nat) (gs : Bool) (s : RServer)
    (t tm : HQMTeam) (pk : Nat) :
    ((HQMRussianBehaviour.fix_status ⟨A, .game z r gs⟩ s t).1.status
        = if t = z then .game z r gs
          else .game t (r + if t = HQMTeam.Red then 1 else 0) gs) ∧
    ((HQMRussianBehaviour.fix_status ⟨A, .game z r gs⟩ s t).2.game.time
        = if t = z then s.game.time else 2000) ∧
    (t = z → HQMRussianBehaviour.fix_status ⟨A, .game z r gs⟩ s t = (⟨A, .game z r gs⟩, s)) ∧
    (handleSimEvent A z r s (.puckEnteredOffensiveZone tm pk)
      = HQMRussianBehaviour.fix_status ⟨A, .game z r false⟩ s tm.get_other_team) ∧
    HQMTeam.get_other_team .Red = .Blue ∧ HQMTeam.get_other_team .Blue = .Red := by
  refine ⟨?_, ?_, ?_, rfl, rfl, rfl⟩
  · rw [fix_status_game_eval]
    by_cases ht : t = z
    · rw [if_neg (by simp [ht]), if_pos ht]
    · rw [if_pos (fun hzt => ht hzt.symm), if_neg ht]
  · rw [fix_status_game_eval]
    by_cases ht : t = z
    · rw [if_neg (by simp [ht]), if_pos ht]
    · rw [if_pos (fun hzt => ht hzt.symm), if_neg ht]
  · intro ht
    rw [fix_status_game_eval, if_neg (by simp [ht])]

/-- Witness for c6_fix_status: with status Game Red 0, fixing for Red
changes nothing, and fixing for Blue sets the claimed status and clock. -/
theorem c6_fix_status_witness :
    HQMRussianBehaviour.fix_status ⟨5, .game HQMTeam.Red 0 false⟩
        (RServer.mk (RGame.mk 0 0 1000 0 false false) [] [] []) HQMTeam.Red
      = (⟨5, .game HQMTeam.Red 0 false⟩,
        RServer.mk (RGame.mk 0 0 1000 0 false false) [] [] []) ∧
    (HQMRussianBehaviour.fix_status ⟨5, .game HQMTeam.Red 0 false⟩
        (RServer.mk (RGame.mk 0 0 1000 0 false false) [] [] []) HQMTeam.Blue).2.game.time
      = if HQMTeam.Blue = HQMTeam.Red then
          (RServer.mk (RGame.mk 0 0 1000 0 false false) [] [] []).game.time
        else 2000 :=
  ⟨(c6_fix_status 5 HQMTeam.Red 0 false
      (RServer.mk (RGame.mk 0 0 1000 0 false false) [] [] []) HQMTeam.Red HQMTeam.Red 0).2.2.1
      rfl,
    (c6_fix_status 5 HQMTeam.Red 0 false
      (RServer.mk (RGame.mk 0 0 1000 0 false false) [] [] []) HQMTeam.Blue HQMTeam.Red 0).2.1⟩

/-- C10: a tied Russian game is never ended by check_ending: whenever the
red and blue scores are equal, the behaviour status, the game_over flag,
the break timer and every other field are left exactly as they were, for
every status and attempts count. -/
theorem c10_tie_never_ends (b : HQMRussianBehaviour) (g : RGame)
    (h : g.redScore = g.blueScore) : b.check_ending g = (b, g) := by
  match b with
  | ⟨A, .pause⟩ => rfl
  | ⟨A, .gameOver⟩ => rfl
  | ⟨A, .game z r gs⟩ =>
    rw [check_ending_game_eval, if_neg (by rw [if_pos (by omega)]; omega)]

/-- Witness for c10_tie_never_ends: a 3-3 tie in round 2 with attempts 5. -/
theorem c10_tie_never_ends_witness :
    HQMRussianBehaviour.check_ending ⟨5, .game HQMTeam.Red 2 false⟩
        (RGame.mk 3 3 100 0 false false)
      = (⟨5, .game HQMTeam.Red 2 false⟩, RGame.mk 3 3 100 0 false false) :=
  c10_tie_never_ends ⟨5, .game HQMTeam.Red 2 false⟩ (RGame.mk 3 3 100 0 false false) rfl

/-- Truncation of a rational toward zero, the behaviour of the Rust cast
v as i32 on an in-range value (t-division of numerator by denominator). -/
def ratTrunc (q : ℚ) : Int :=
  q.num.tdiv (q.den : Int)

/-- Three-component vector over exact rationals, standing in for the f32
Vector3 and Point3 of nalgebra; multiplications by powers of two, the only
f32 operations a claim quantifies over, are exact in both arithmetics. -/
structure HQMVector3 where
  x : ℚ
  y : ℚ
  z : ℚ
  deriving DecidableEq, Repr

/-- Componentwise sum of vectors. -/
def HQMVector3.add (a b : HQMVector3) : HQMVector3 :=
  ⟨a.x + b.x, a.y + b.y, a.z + b.z⟩

/-- Two-component vector over exact rationals (nalgebra Vector2). -/
structure HQMVector2 where
  x : ℚ
  y : ℚ
  deriving DecidableEq, Repr

/-- Column-major 3 by 3 matrix over exact rationals (nalgebra Matrix3). -/
structure HQMMatrix3 where
  c0 : HQMVector3
  c1 : HQMVector3
  c2 : HQMVector3
  deriving DecidableEq, Repr

/-- Matrix-vector product, columns weighted by the vector components. -/
def HQMMatrix3.mulVec (m : HQMMatrix3) (v : HQMVector3) : HQMVector3 :=
  ⟨m.c0.x * v.x + m.c1.x * v.y + m.c2.x * v.z,
   m.c0.y * v.x + m.c1.y * v.y + m.c2.y * v.z,
   m.c0.z * v.x + m.c1.z * v.y + m.c2.z * v.z⟩

/-- Identity matrix (Matrix3::identity). -/
def HQMMatrix3.identity : HQMMatrix3 :=
  ⟨⟨1, 0, 0⟩, ⟨0, 1, 0⟩, ⟨0, 0, 1⟩⟩

/-- HQMSkaterHand (src/hqm_game.rs, lines 357-360). -/
inductive HQMSkaterHand where
  | Left
  | Right
  deriving DecidableEq, Repr

/-- HQMPlayerInput (src/hqm_game.rs, lines 321-331). -/
structure HQMPlayerInput where
  stick_angle : ℚ
  turn : ℚ
  unknown : ℚ
  fwbw : ℚ
  stick : HQMVector2
  head_rot : ℚ
  body_rot : ℚ
  keys : Nat
  deriving DecidableEq, Repr

/-- Default for HQMPlayerInput (src/hqm_game.rs, lines 333-346). -/
def HQMPlayerInput.default : HQMPlayerInput :=
  ⟨0, 0, 0, 0, ⟨0, 0⟩, 0, 0, 0⟩

/-- HQMBody (src/hqm_game.rs, lines 211-218). -/
structure HQMBody where
  pos : HQMVector3
  linear_velocity : HQMVector3
  rot : HQMMatrix3
  angular_velocity : HQMVector3
  rot_mul : HQMVector3
  deriving DecidableEq, Repr

/-- HQMSkaterCollisionBall (src/hqm_game.rs, lines 300-307). -/
structure HQMSkaterCollisionBall where
  offset : HQMVector3
  pos : HQMVector3
  velocity : HQMVector3
  radius : ℚ
  deriving DecidableEq, Repr

/-- HQMSkaterCollisionBall::from_skater (src/hqm_game.rs, lines 309-319). -/
def HQMSkaterCollisionBall.from_skater (offset skater_pos : HQMVector3)
    (skater_rot : HQMMatrix3) (velocity : HQMVector3) (radius : ℚ) :
    HQMSkaterCollisionBall :=
  ⟨offset, skater_pos.add (skater_rot.mulVec offset), velocity, radius⟩

/-- HQMSkater (src/hqm_game.rs, lines 220-237). -/
structure HQMSkater where
  index : Nat
  connected_player_index : Nat
  body : HQMBody
  stick_pos : HQMVector3
  stick_velocity : HQMVector3
  stick_rot : HQMMatrix3
  head_rot : ℚ
  body_rot : ℚ
  height : ℚ
  input : HQMPlayerInput
  jumped_last_frame : Bool
  stick_placement : HQMVector2
  stick_placement_delta : HQMVector2
  collision_balls : List HQMSkaterCollisionBall
  hand : HQMSkaterHand
  deriving DecidableEq, Repr

/-- HQMSkater::get_collision_balls (src/hqm_game.rs, lines 241-250): the
six balls of the humanoid silhouette. -/
def HQMSkater.get_collision_balls (pos : HQMVector3) (rot : HQMMatrix3)
    (linear_velocity : HQMVector3) : List HQMSkaterCollisionBall :=
  [HQMSkaterCollisionBall.from_skater ⟨0, 0, 0⟩ pos rot linear_velocity 0.225,
   HQMSkaterCollisionBall.from_skater ⟨0.25, 0.3125, 0⟩ pos rot linear_velocity 0.25,
   HQMSkaterCollisionBall.from_skater ⟨-0.25, 0.3125, 0⟩ pos rot linear_velocity 0.25,
   HQMSkaterCollisionBall.from_skater ⟨-0.1875, -0.1875, 0⟩ pos rot linear_velocity 0.1875,
   HQMSkaterCollisionBall.from_skater ⟨0.1875, -0.1875, 0⟩ pos rot linear_velocity 0.1875,
   HQMSkaterCollisionBall.from_skater ⟨0, 0.5, 0⟩ pos rot linear_velocity 0.1875]

/-- HQMSkater::new (src/hqm_game.rs, lines 252-278). -/
def HQMSkater.new (object_index : Nat) (pos : HQMVector3) (rot : HQMMatrix3)
    (hand : HQMSkaterHand) (connected_player_index : Nat) : HQMSkater :=
  { index := object_index
    connected_player_index := connected_player_index
    body :=
      { pos := pos
        linear_velocity := ⟨0, 0, 0⟩
        rot := rot
        angular_velocity := ⟨0, 0, 0⟩
        rot_mul := ⟨2.75, 6.16, 2.35⟩ }
    stick_pos := pos
    stick_velocity := ⟨0, 0, 0⟩
    stick_rot := HQMMatrix3.identity
    head_rot := 0
    body_rot := 0
    height := 0.75
    input := HQMPlayerInput.default
    jumped_last_frame := false
    stick_placement := ⟨0, 0⟩
    stick_placement_delta := ⟨0, 0⟩
    collision_balls := HQMSkater.get_collision_balls pos rot ⟨0, 0, 0⟩
    hand := hand }

/-- get_position (src/hqm_game.rs, lines 528-537).  The Rust cast
v as i32 truncates toward zero and saturates at the i32 range; the
comparison bound (1 << bits) - 1 is computed here over Int, which agrees
with the source for every width the packet builder uses (13, 16, 17). -/
def get_position (bits : Nat) (v : ℚ) : Nat :=
  let temp : Int := max (-(2 ^ 31)) (min (2 ^ 31 - 1) (ratTrunc v))
  if temp < 0 then 0
  else if (2 ^ bits - 1 : Int) < temp then ((2 : Int) ^ bits - 1).toNat
  else temp.toNat

/-- HQMSkaterPacket (src/hqm_parse.rs, lines 153-160), restricted to the
quantized position and angle fields; the rot and stick_rot pairs are
produced by convert_matrix over f32 columns, which the rotation-codec
claims treat symbolically, so they are not part of this record. -/
structure HQMSkaterPacket where
  pos : Nat × Nat × Nat
  stick_pos : Nat × Nat × Nat
  head_rot : Nat
  body_rot : Nat
  deriving DecidableEq, Repr

/-- HQMSkater::get_packet (src/hqm_game.rs, lines 280-296), quantized
position and angle fields. -/
def HQMSkater.get_packet (s : HQMSkater) : HQMSkaterPacket :=
  { pos := (get_position 17 (1024 * s.body.pos.x),
            get_position 17 (1024 * s.body.pos.y),
            get_position 17 (1024 * s.body.pos.z))
    stick_pos := (get_position 13 (1024 * (s.stick_pos.x - s.body.pos.x + 4)),
                  get_position 13 (1024 * (s.stick_pos.y - s.body.pos.y + 4)),
                  get_position 13 (1024 * (s.stick_pos.z - s.body.pos.z + 4)))
    head_rot := get_position 16 ((s.head_rot + 2) * 8192)
    body_rot := get_position 16 ((s.body_rot + 2) * 8192) }

/-- HQMPuck (src/hqm_game.rs, lines 362-369). -/
structure HQMPuck where
  index : Nat
  body : HQMBody
  radius : ℚ
  height : ℚ
  last_player_index : List (Option Nat)
  deriving DecidableEq, Repr

/-- HQMPuck::new (src/hqm_game.rs, lines 371-386). -/
def HQMPuck.new (object_index : Nat) (pos : HQMVector3) (rot : HQMMatrix3) : HQMPuck :=
  { index := object_index
    body :=
      { pos := pos
        linear_velocity := ⟨0, 0, 0⟩
        rot := rot
        angular_velocity := ⟨0, 0, 0⟩
        rot_mul := ⟨223.5, 128.0, 223.5⟩ }
    radius := 0.125
    height := 0.0412500016391
    last_player_index := [none, none, none, none] }

/-- HQMGameObject (src/hqm_game.rs, lines 400-405). -/
inductive HQMGameObject where
  | none
  | player (skater : HQMSkater)
  | puck (p : HQMPuck)
  deriving DecidableEq, Repr

/-- HQMGameWorld (src/hqm_game.rs, lines 9-14); the rink field is static
f32 collider geometry that no claim quantifies over and is omitted from
the model. -/
structure HQMGameWorld where
  objects : List HQMGameObject
  gravity : ℚ
  limit_jump_speed : Bool
  deriving DecidableEq, Repr

/-- HQMGameWorld::find_empty_object_slot (src/hqm_game.rs, lines 33-38):
the position of the first None slot. -/
def HQMGameWorld.find_empty_object_slot (w : HQMGameWorld) : Option Nat :=
  w.objects.findIdx? (fun x =>
    match x with
    | HQMGameObject.none => true
    | _ => false)

/-- HQMGameWorld::create_player_object (src/hqm_game.rs, lines 17-23),
returning the slot index together with the updated world. -/
def HQMGameWorld.create_player_object (w : HQMGameWorld) (start : HQMVector3)
    (rot : HQMMatrix3) (hand : HQMSkaterHand) (connected_player_index : Nat) :
    Option Nat × HQMGameWorld :=
  let object_slot := w.find_empty_object_slot
  match object_slot with
  | some i =>
    let skater := HQMSkater.new i start rot hand connected_player_index
    (some i, { w with objects := w.objects.set i (.player skater) })
  | none => (none, w)

/-- HQMGameWorld::create_puck_object (src/hqm_game.rs, lines 25-31). -/
def HQMGameWorld.create_puck_object (w : HQMGameWorld) (start : HQMVector3)
    (rot : HQMMatrix3) : Option Nat × HQMGameWorld :=
  let object_slot := w.find_empty_object_slot
  match object_slot with
  | some i =>
    (some i, { w with objects := w.objects.set i (.puck (HQMPuck.new i start rot)) })
  | none => (none, w)

/-- The quantizer in the words of the spec: clamp of the integer truncation
to the bits-wide unsigned range. -/
def specClamp (bits : Nat) (t : Int) : Nat :=
  (max 0 (min ((2 : Int) ^ bits - 1) t)).toNat

/-- For the widths the packet builder uses, the code path of get_position
(saturating cast to i32, then the two-sided test) computes exactly the
spec clamp of the truncation. -/
theorem get_position_eq_specClamp (bits : Nat) (h : bits ≤ 30) (v : ℚ) :
    get_position bits v = specClamp bits (ratTrunc v) := by
  have hb : (2 : Int) ^ bits ≤ 2 ^ 30 := by
    apply pow_le_pow_right₀ (by norm_num) h
  have h30 : (2 : Int) ^ 30 = 1073741824 := by norm_num
  have h31 : (2 : Int) ^ 31 = 2147483648 := by norm_num
  have hb0 : (1 : Int) ≤ 2 ^ bits := one_le_pow₀ (by norm_num)
  simp only [get_position, specClamp]
  split_ifs with h1 h2 <;> omega

/-- C7: get_packet quantizes each body position coordinate as the 17-bit
clamp of the truncation of 1024 times the coordinate, each stick position
coordinate as the 13-bit clamp of 1024 times (stick - body + 4), and the
head and body angles as the 16-bit clamp of (angle + 2) times 8192; and for
every width up to 30, a negative pre-clamp value maps to 0 and an
over-range value maps to the field maximum 2 ^ bits - 1.  Coordinates are
exact rationals standing in for f32 values. -/
theorem c7_skater_packet_quantization (s : HQMSkater) :
    s.get_packet.pos
      = (specClamp 17 (ratTrunc (1024 * s.body.pos.x)),
         specClamp 17 (ratTrunc (1024 * s.body.pos.y)),
         specClamp 17 (ratTrunc (1024 * s.body.pos.z))) ∧
    s.get_packet.stick_pos
      = (specClamp 13 (ratTrunc (1024 * (s.stick_pos.x - s.body.pos.x + 4))),
         specClamp 13 (ratTrunc (1024 * (s.stick_pos.y - s.body.pos.y + 4))),
         specClamp 13 (ratTrunc (1024 * (s.stick_pos.z - s.body.pos.z + 4)))) ∧
    s.get_packet.head_rot = specClamp 16 (ratTrunc ((s.head_rot + 2) * 8192)) ∧
    s.get_packet.body_rot = specClamp 16 (ratTrunc ((s.body_rot + 2) * 8192)) ∧
    (∀ bits : Nat, bits ≤ 30 → ∀ v : ℚ,
      (ratTrunc v < 0 → get_position bits v = 0) ∧
      ((2 ^ bits - 1 : Int) < ratTrunc v → get_position bits v = 2 ^ bits - 1)) := by
  refine ⟨?_, ?_, ?_, ?_, ?_⟩
  · simp only [HQMSkater.get_packet, get_position_eq_specClamp 17 (by norm_num)]
  · simp only [HQMSkater.get_packet, get_position_eq_specClamp 13 (by norm_num)]
  · simp only [HQMSkater.get_packet, get_position_eq_specClamp 16 (by norm_num)]
  · simp only [HQMSkater.get_packet, get_position_eq_specClamp 16 (by norm_num)]
  · intro bits hbits v
    have heq := get_position_eq_specClamp bits hbits v
    have hb0 : (1 : Int) ≤ 2 ^ bits := one_le_pow₀ (by norm_num)
    constructor
    · intro hneg
      rw [heq]
      simp only [specClamp]
      omega
    · intro hover
      rw [heq]
      simp only [specClamp]
      have hcast : ((2 : Int) ^ bits) = ((2 ^ bits : Nat) : Int) := by push_cast; ring
      omega

/-- Witness for c7_skater_packet_quantization: a freshly created skater at
x = -5, z = 200, and the clamp behaviour at width 17 for a negative value
and at width 13 for an over-range value. -/
theorem c7_skater_packet_quantization_witness :
    (HQMSkater.new 0 ⟨-5, 0, 200⟩ HQMMatrix3.identity HQMSkaterHand.Left 3).get_packet.pos
      = (specClamp 17 (ratTrunc (1024 * (-5 : ℚ))),
         specClamp 17 (ratTrunc (1024 * (0 : ℚ))),
         specClamp 17 (ratTrunc (1024 * (200 : ℚ)))) ∧
    get_position 17 (-5) = 0 ∧
    get_position 13 99999999 = 2 ^ 13 - 1 :=
  ⟨(c7_skater_packet_quantization
      (HQMSkater.new 0 ⟨-5, 0, 200⟩ HQMMatrix3.identity HQMSkaterHand.Left 3)).1,
   ((c7_skater_packet_quantization
      (HQMSkater.new 0 ⟨-5, 0, 200⟩ HQMMatrix3.identity HQMSkaterHand.Left 3)).2.2.2.2
      17 (by decide) (-5)).1 (by decide),
   ((c7_skater_packet_quantization
      (HQMSkater.new 0 ⟨-5, 0, 200⟩ HQMMatrix3.identity HQMSkaterHand.Left 3)).2.2.2.2
      13 (by decide) 99999999).2 (by decide)⟩

/-- A successful find_empty_object_slot returns the lowest None slot. -/
theorem find_empty_object_slot_some (w : HQMGameWorld) (i : Nat)
    (h : w.find_empty_object_slot = some i) :
    i < w.objects.length ∧ w.objects[i]? = some HQMGameObject.none ∧
    ∀ j, j < i → w.objects[j]? ≠ some HQMGameObject.none := by
  rw [HQMGameWorld.find_empty_object_slot, List.findIdx?_eq_some_iff_getElem] at h
  obtain ⟨hlt, hp, hprev⟩ := h
  refine ⟨hlt, ?_, ?_⟩
  · rw [List.getElem?_eq_getElem hlt]
    rcases hx : w.objects[i] with _ | sk | pk
    · rfl
    · rw [hx] at hp
      simp at hp
    · rw [hx] at hp
      simp at hp
  · intro j hj
    have hnp := hprev j (by omega)
    rw [List.getElem?_eq_getElem (by omega : j < w.objects.length)]
    intro heq
    have hj2 : w.objects[j] = HQMGameObject.none := Option.some.inj heq
    rw [hj2] at hnp
    simp at hnp

/-- A failed find_empty_object_slot means no slot holds None. -/
theorem find_empty_object_slot_none (w : HQMGameWorld)
    (h : w.find_empty_object_slot = none) :
    ∀ o ∈ w.objects, o ≠ HQMGameObject.none := by
  rw [HQMGameWorld.find_empty_object_slot, List.findIdx?_eq_none_iff] at h
  intro o ho heq
  have hfalse := h o ho
  rw [heq] at hfalse
  simp at hfalse

/-- When some slot holds None, find_empty_object_slot succeeds. -/
theorem find_empty_object_slot_isSome (w : HQMGameWorld)
    (h : ∃ o ∈ w.objects, o = HQMGameObject.none) :
    ∃ i, w.find_empty_object_slot = some i := by
  rw [HQMGameWorld.find_empty_object_slot, ← Option.isSome_iff_exists,
    List.findIdx?_isSome, List.any_eq_true]
  obtain ⟨o, ho, heq⟩ := h
  exact ⟨o, ho, by rw [heq]⟩

/-- The returned slot of create_player_object is the found empty slot. -/
theorem create_player_object_fst (w : HQMGameWorld) (start : HQMVector3) (rot : HQMMatrix3)
    (hand : HQMSkaterHand) (cpi : Nat) :
    (w.create_player_object start rot hand cpi).1 = w.find_empty_object_slot := by
  simp only [HQMGameWorld.create_player_object]
  cases h : w.find_empty_object_slot <;> rfl

/-- The world update of create_player_object on a successful find. -/
theorem create_player_object_snd_some (w : HQMGameWorld) (start : HQMVector3)
    (rot : HQMMatrix3) (hand : HQMSkaterHand) (cpi : Nat) (i : Nat)
    (h : w.find_empty_object_slot = some i) :
    (w.create_player_object start rot hand cpi).2.objects
      = w.objects.set i (.player (HQMSkater.new i start rot hand cpi)) := by
  simp only [HQMGameWorld.create_player_object]
  rw [h]

/-- The world is untouched when create_player_object finds no empty slot. -/
theorem create_player_object_snd_none (w : HQMGameWorld) (start : HQMVector3)
    (rot : HQMMatrix3) (hand : HQMSkaterHand) (cpi : Nat)
    (h : w.find_empty_object_slot = none) :
    (w.create_player_object start rot hand cpi).2 = w := by
  simp only [HQMGameWorld.create_player_object]
  rw [h]

/-- The returned slot of create_puck_object is the found empty slot. -/
theorem create_puck_object_fst (w : HQMGameWorld) (start : HQMVector3) (rot : HQMMatrix3) :
    (w.create_puck_object start rot).1 = w.find_empty_object_slot := by
  simp only [HQMGameWorld.create_puck_object]
  cases h : w.find_empty_object_slot <;> rfl

/-- The world update of create_puck_object on a successful find. -/
theorem create_puck_object_snd_some (w : HQMGameWorld) (start : HQMVector3)
    (rot : HQMMatrix3) (i : Nat) (h : w.find_empty_object_slot = some i) :
    (w.create_puck_object start rot).2.objects
      = w.objects.set i (.puck (HQMPuck.new i start rot)) := by
  simp only [HQMGameWorld.create_puck_object]
  rw [h]

/-- The world is untouched when create_puck_object finds no empty slot. -/
theorem create_puck_object_snd_none (w : HQMGameWorld) (start : HQMVector3)
    (rot : HQMMatrix3) (h : w.find_empty_object_slot = none) :
    (w.create_puck_object start rot).2 = w := by
  simp only [HQMGameWorld.create_puck_object]
  rw [h]

/-- C8: create_player_object and create_puck_object place the new object in
the lowest-indexed slot holding None and return that index, leaving every
other slot and the slot-array length unchanged; when no slot holds None
they return none and leave the world entirely unchanged; and whenever some
slot holds None they do return an index. -/
theorem c8_create_object_slots (w : HQMGameWorld) (start : HQMVector3) (rot : HQMMatrix3)
    (hand : HQMSkaterHand) (cpi : Nat) :
    (∀ i, (w.create_player_object start rot hand cpi).1 = some i →
      i < w.objects.length ∧ w.objects[i]? = some HQMGameObject.none ∧
      (∀ j, j < i → w.objects[j]? ≠ some HQMGameObject.none) ∧
      (w.create_player_object start rot hand cpi).2.objects
        = w.objects.set i (.player (HQMSkater.new i start rot hand cpi)) ∧
      (w.create_player_object start rot hand cpi).2.objects.length = w.objects.length ∧
      (∀ j, j ≠ i →
        (w.create_player_object start rot hand cpi).2.objects[j]? = w.objects[j]?)) ∧
    ((w.create_player_object start rot hand cpi).1 = none →
      (∀ o ∈ w.objects, o ≠ HQMGameObject.none) ∧
      (w.create_player_object start rot hand cpi).2 = w) ∧
    ((∃ o ∈ w.objects, o = HQMGameObject.none) →
      ∃ i, (w.create_player_object start rot hand cpi).1 = some i) ∧
    (∀ i, (w.create_puck_object start rot).1 = some i →
      i < w.objects.length ∧ w.objects[i]? = some HQMGameObject.none ∧
      (∀ j, j < i → w.objects[j]? ≠ some HQMGameObject.none) ∧
      (w.create_puck_object start rot).2.objects
        = w.objects.set i (.puck (HQMPuck.new i start rot)) ∧
      (w.create_puck_object start rot).2.objects.length = w.objects.length ∧
      (∀ j, j ≠ i → (w.create_puck_object start rot).2.objects[j]? = w.objects[j]?)) ∧
    ((w.create_puck_object start rot).1 = none →
      (∀ o ∈ w.objects, o ≠ HQMGameObject.none) ∧
      (w.create_puck_object start rot).2 = w) ∧
    ((∃ o ∈ w.objects, o = HQMGameObject.none) →
      ∃ i, (w.create_puck_object start rot).1 = some i) := by
  refine ⟨?_, ?_, ?_, ?_, ?_, ?_⟩
  · intro i hi
    rw [create_player_object_fst] at hi
    obtain ⟨hlt, hslot, hlow⟩ := find_empty_object_slot_some w i hi
    have hobj := create_player_object_snd_some w start rot hand cpi i hi
    refine ⟨hlt, hslot, hlow, hobj, ?_, ?_⟩
    · rw [hobj, List.length_set]
    · intro j hj
      rw [hobj, List.getElem?_set_ne (fun h => hj h.symm)]
  · intro hn
    rw [create_player_object_fst] at hn
    exact ⟨find_empty_object_slot_none w hn,
      create_player_object_snd_none w start rot hand cpi hn⟩
  · intro hex
    rw [create_player_object_fst]
    exact find_empty_object_slot_isSome w hex
  · intro i hi
    rw [create_puck_object_fst] at hi
    obtain ⟨hlt, hslot, hlow⟩ := find_empty_object_slot_some w i hi
    have hobj := create_puck_object_snd_some w start rot i hi
    refine ⟨hlt, hslot, hlow, hobj, ?_, ?_⟩
    · rw [hobj, List.length_set]
    · intro j hj
      rw [hobj, List.getElem?_set_ne (fun h => hj h.symm)]
  · intro hn
    rw [create_puck_object_fst] at hn
    exact ⟨find_empty_object_slot_none w hn, create_puck_object_snd_none w start rot hn⟩
  · intro hex
    rw [create_puck_object_fst]
    exact find_empty_object_slot_isSome w hex

/-- Witness for c8_create_object_slots: a three-slot world whose first slot
is occupied by a puck; the new player lands in slot 1, which is the lowest
empty one, and slot 0 and slot 2 keep their contents. -/
theorem c8_create_object_slots_witness :
    (1 : Nat) < 3 ∧
    (HQMGameWorld.mk
        [HQMGameObject.puck (HQMPuck.new 0 ⟨1, 0, 1⟩ HQMMatrix3.identity),
          HQMGameObject.none, HQMGameObject.none] 0 false).objects[1]?
      = some HQMGameObject.none ∧
    (∀ j, j < 1 →
      (HQMGameWorld.mk
        [HQMGameObject.puck (HQMPuck.new 0 ⟨1, 0, 1⟩ HQMMatrix3.identity),
          HQMGameObject.none, HQMGameObject.none] 0 false).objects[j]?
        ≠ some HQMGameObject.none) ∧
    ((HQMGameWorld.mk
        [HQMGameObject.puck (HQMPuck.new 0 ⟨1, 0, 1⟩ HQMMatrix3.identity),
          HQMGameObject.none, HQMGameObject.none] 0 false).create_player_object
        ⟨2, 2, 2⟩ HQMMatrix3.identity HQMSkaterHand.Left 7).2.objects
      = [HQMGameObject.puck (HQMPuck.new 0 ⟨1, 0, 1⟩ HQMMatrix3.identity),
          HQMGameObject.none, HQMGameObject.none].set 1
          (.player (HQMSkater.new 1 ⟨2, 2, 2⟩ HQMMatrix3.identity HQMSkaterHand.Left 7)) ∧
    ((HQMGameWorld.mk
        [HQMGameObject.puck (HQMPuck.new 0 ⟨1, 0, 1⟩ HQMMatrix3.identity),
          HQMGameObject.none, HQMGameObject.none] 0 false).create_player_object
        ⟨2, 2, 2⟩ HQMMatrix3.identity HQMSkaterHand.Left 7).2.objects.length = 3 ∧
    (∀ j, j ≠ 1 →
      ((HQMGameWorld.mk
        [HQMGameObject.puck (HQMPuck.new 0 ⟨1, 0, 1⟩ HQMMatrix3.identity),
          HQMGameObject.none, HQMGameObject.none] 0 false).create_player_object
        ⟨2, 2, 2⟩ HQMMatrix3.identity HQMSkaterHand.Left 7).2.objects[j]?
        = [HQMGameObject.puck (HQMPuck.new 0 ⟨1, 0, 1⟩ HQMMatrix3.identity),
            HQMGameObject.none, HQMGameObject.none][j]?) :=
  (c8_create_object_slots
    (HQMGameWorld.mk
      [HQMGameObject.puck (HQMPuck.new 0 ⟨1, 0, 1⟩ HQMMatrix3.identity),
        HQMGameObject.none, HQMGameObject.none] 0 false)
    ⟨2, 2, 2⟩ HQMMatrix3.identity HQMSkaterHand.Left 7).1 1 (by decide)
